import Mathlib

/-!
# find-gh-poc: a verification development of `main.go`

The program searches GitHub for repositories, pages through the results
(`getRepos`), scans every repository's url and description for CVE identifiers
with a fixed regular expression, and derives the report's file name from the
query (`main`).

Go strings are byte sequences; they are embedded as lists of byte values.
The library functions `main.go` calls (`utf8.DecodeRuneInString`,
`regexp.FindAllStringSubmatch`, `strings.ReplaceAll`, `strings.Trim`,
`strings.Contains`) are embedded by their Go semantics, on bytes.
-/

namespace FindGhPoc

/-! ## Go strings -/

/-- A Go `string`: an immutable sequence of bytes (each value below 256). -/
abbrev GoString := List Nat

/-- Go `utf8.EncodeRune`: the UTF-8 bytes of a code point. -/
def encodeRune (r : Nat) : GoString :=
  if r < 0x80 then [r]
  else if r < 0x800 then [0xC0 + r / 64, 0x80 + r % 64]
  else if r < 0x10000 then [0xE0 + r / 4096, 0x80 + r / 64 % 64, 0x80 + r % 64]
  else [0xF0 + r / 262144, 0x80 + r / 4096 % 64, 0x80 + r / 64 % 64, 0x80 + r % 64]

/-- The bytes of a Go string literal (Go source text is UTF-8). -/
def lit (s : String) : GoString :=
  s.toList.flatMap fun c => encodeRune c.toNat

/-- Go `utf8.RuneError`. -/
def RuneError : Nat := 0xFFFD

/-- Continuation byte test of `utf8.DecodeRuneInString` (`locb <= b <= hicb`). -/
def isCont (b : Nat) : Bool := 0x80 ≤ b && b ≤ 0xBF

/-- The two-byte case of `utf8.DecodeRuneInString`: `s0` in C2..DF, `t` the
bytes after it. -/
def decode2 (s0 : Nat) : GoString → Nat × Nat
  | s1 :: _ => if isCont s1 then (s0 % 32 * 64 + s1 % 64, 2) else (RuneError, 1)
  | _ => (RuneError, 1)

/-- The three-byte case of `utf8.DecodeRuneInString`: `s0` in E0..EF; the
accept range of the second byte starts at A0 after E0 and ends at 9F after ED. -/
def decode3 (s0 : Nat) : GoString → Nat × Nat
  | s1 :: s2 :: _ =>
    if s1 < (if s0 = 0xE0 then 0xA0 else 0x80) || (if s0 = 0xED then 0x9F else 0xBF) < s1 then
      (RuneError, 1)
    else if !isCont s2 then (RuneError, 1)
    else (s0 % 16 * 4096 + s1 % 64 * 64 + s2 % 64, 3)
  | _ => (RuneError, 1)

/-- The four-byte case of `utf8.DecodeRuneInString`: `s0` in F0..F4; the
accept range of the second byte starts at 90 after F0 and ends at 8F after F4. -/
def decode4 (s0 : Nat) : GoString → Nat × Nat
  | s1 :: s2 :: s3 :: _ =>
    if s1 < (if s0 = 0xF0 then 0x90 else 0x80) || (if s0 = 0xF4 then 0x8F else 0xBF) < s1 then
      (RuneError, 1)
    else if !isCont s2 then (RuneError, 1)
    else if !isCont s3 then (RuneError, 1)
    else (s0 % 8 * 262144 + s1 % 64 * 4096 + s2 % 64 * 64 + s3 % 64, 4)
  | _ => (RuneError, 1)

/-- Go `utf8.DecodeRuneInString`: the rune at the head of `s` and its width
in bytes; an invalid encoding gives `(RuneError, 1)`. The table `first` and
the accept ranges are written out as byte intervals, the masks and shifts as
remainders and products. -/
def decodeRune : GoString → Nat × Nat
  | [] => (RuneError, 0)
  | s0 :: t =>
    if s0 < 0x80 then (s0, 1)
    else if s0 < 0xC2 then (RuneError, 1)
    else if s0 < 0xE0 then decode2 s0 t
    else if s0 < 0xF0 then decode3 s0 t
    else if s0 < 0xF5 then decode4 s0 t
    else (RuneError, 1)

/-- Go regexp `inputString.step`: the rune at the current position and its
width, `none` at the end of the text. -/
def step (s : GoString) : Option (Nat × Nat) :=
  match s with
  | [] => none
  | _ :: _ => some (decodeRune s)

/-! ## Regular expressions -/

/-- A one-rune regular expression: a literal rune or a range `[lo-hi]`. -/
inductive Atom where
  | rune (r : Nat)
  | range (lo hi : Nat)
  deriving DecidableEq

/-- Syntax of the regular expressions used by `CVERegex`. -/
inductive Regex where
  | atom (a : Atom)
  | cat (a b : Regex)
  | alt (a b : Regex)
  | group (a : Regex)
  | rep (a : Atom) (n : Nat)
  | repMin (a : Atom) (n : Nat)
  deriving DecidableEq

/-- Whether a one-rune expression accepts the rune `x`. -/
def Atom.accepts : Atom → Nat → Bool
  | .rune r, x => x == r
  | .range lo hi, x => lo ≤ x && x ≤ hi

/-- Match one rune at the head of `s`, then continue with `k`. -/
def matchAtom (a : Atom) (k : GoString → Option GoString) (s : GoString) :
    Option GoString :=
  match step s with
  | none => none
  | some (r, w) => if a.accepts r then k (s.drop w) else none

/-- Exactly `n` copies of a one-rune expression (`a{n}`), then `k`. -/
def matchRep (a : Atom) (k : GoString → Option GoString) :
    Nat → GoString → Option GoString
  | 0, s => k s
  | n + 1, s => matchAtom a (matchRep a k n) s

/-- Greedy `a*` with backtracking, then `k`: one more rune is tried first.
The counter bounds the number of iterations; the length of the input is
always enough, every iteration consuming at least one byte. -/
def matchStar (a : Atom) (k : GoString → Option GoString) :
    Nat → GoString → Option GoString
  | 0, s => k s
  | fuel + 1, s =>
    match matchAtom a (matchStar a k fuel) s with
    | some r => some r
    | none => k s

/-- Backtracking matcher with Go's leftmost-first preference: `run re k s`
matches `re` at the head of `s` and hands the rest of the input to `k`; the
first alternative that lets `k` succeed wins. -/
def run : Regex → (GoString → Option GoString) → GoString → Option GoString
  | .atom a, k, s => matchAtom a k s
  | .cat a b, k, s => run a (run b k) s
  | .alt a b, k, s =>
    match run a k s with
    | some r => some r
    | none => run b k s
  | .group a, k, s => run a k s
  | .rep a n, k, s => matchRep a k n s
  | .repMin a n, k, s => matchRep a (fun t => matchStar a k t.length t) n s

/-- Length in bytes of the match of `re` anchored at the head of `s`. -/
def matchLen (re : Regex) (s : GoString) : Option Nat :=
  (run re some s).map fun rest => s.length - rest.length

/-- The regexp backtracker's unanchored search loop
(`for ; pos <= end && width != 0; pos += width`): `t` is the text from `pos`
on; the result is the `(start, end)` of the leftmost match. -/
def searchFrom (re : Regex) : Nat → GoString → Nat → Option (Nat × Nat)
  | 0, _, _ => none
  | fuel + 1, t, pos =>
    match matchLen re t with
    | some n => some (pos, pos + n)
    | none =>
      match step t with
      | none => none
      | some (_, w) => searchFrom re fuel (t.drop w) (pos + w)

/-- Go `Regexp.doExecute` on a string, searching from `pos`. -/
def doExecute (re : Regex) (s : GoString) (pos : Nat) : Option (Nat × Nat) :=
  searchFrom re (s.length - pos + 1) (s.drop pos) pos

/-- Go `Regexp.allMatches`: the loop
`for pos, i, prevMatchEnd := 0, 0, -1; i < n && pos <= end; ...`,
delivering the `(start, end)` of the successive matches. -/
def allMatches (re : Regex) (s : GoString) (n : Nat) :
    Nat → Nat → Nat → Int → List (Nat × Nat)
  | 0, _, _, _ => []
  | fuel + 1, pos, i, prevMatchEnd =>
    if i < n ∧ pos ≤ s.length then
      match doExecute re s pos with
      | none => []
      | some (b, e) =>
        let pos' :=
          if e = pos then
            match step (s.drop pos) with
            | some (_, w) => pos + w
            | none => s.length + 1
          else e
        if e = pos ∧ (b : Int) = prevMatchEnd then
          allMatches re s n fuel pos' i e
        else
          (b, e) :: allMatches re s n fuel pos' (i + 1) e
    else []

/-- Go `Regexp.FindAllStringSubmatch(s, -1)`, keeping of every submatch slice
its entry 0, the text of the whole match (the only entry `main` reads; the
slices themselves are never nil nor empty). A negative `n` means
`n = len(s) + 1`. -/
def FindAllStringSubmatch (re : Regex) (s : GoString) : List GoString :=
  (allMatches re s (s.length + 1) (s.length + 2) 0 0 (-1)).map
    fun be => (s.drop be.1).take (be.2 - be.1)

/-! ## The `strings` functions -/

/-- Go `strings.HasPrefix`. -/
def HasPrefix (s pre : GoString) : Bool := pre.isPrefixOf s

/-- Go `strings.Contains`: `substr` occurs at some byte offset of `s`. -/
def Contains : GoString → GoString → Bool
  | [], substr => substr.isEmpty
  | c :: t, substr => HasPrefix (c :: t) substr || Contains t substr

/-- The scan of `strings.Replace` for a non-empty `old`: left to right, each
occurrence of `old` gives `new` and the scan resumes after it; `skip` counts
the bytes of the occurrence still to pass over. -/
def replaceScan (old new : GoString) : Nat → GoString → GoString
  | _, [] => []
  | skip + 1, _ :: t => replaceScan old new skip t
  | 0, c :: t =>
    if HasPrefix (c :: t) old then new ++ replaceScan old new (old.length - 1) t
    else c :: replaceScan old new 0 t

/-- Go `strings.ReplaceAll(s, old, new)` for a non-empty `old`, as at both call
sites of `main` (with an empty `old` Go inserts `new` around every rune, which
is not embedded: `s` is returned). -/
def ReplaceAll (s old new : GoString) : GoString :=
  if old = [] then s else replaceScan old new 0 s

/-- Go `strings.Trim(s, cutset)` for a cutset of two or more ASCII bytes, the
`trimLeftASCII(trimRightASCII(s, &as), &as)` path taken for `"-*"`. -/
def Trim (s cutset : GoString) : GoString :=
  if s = [] ∨ cutset = [] then s
  else ((s.reverse.dropWhile fun b => cutset.contains b).reverse).dropWhile
    fun b => cutset.contains b

/-! ## `main.go` -/

/-- Source: `illegalFileNameChars`. -/
def illegalFileNameChars : List GoString :=
  [lit "<", lit ">", lit ":", lit "\"", lit "/", lit "\\", lit "|", lit "?",
   lit "*", lit " ", lit "\x7d", lit "\x7b", lit "#", lit "$", lit "%", lit "!",
   lit "\x60", lit "\x27", lit "@", lit "=", lit "+"]

/-- The rune `-` (U+002D). -/
def hyphen : Nat := 0x2D

/-- The rune `–` (U+2013, en dash). -/
def enDash : Nat := 0x2013

/-- The sub-expression `(-|–)`. -/
def sepRe : Regex :=
  .group (.alt (.atom (.rune hyphen)) (.atom (.rune enDash)))

/-- The sub-expression `[0-9]`, as a one-rune expression. -/
def digitAtom : Atom := .range 0x30 0x39

/-- One branch of `CVERegex`: `(XYZ(-|–)[0-9]{4}(-|–)[0-9]{4,})`. -/
def cveBranch (x y z : Nat) : Regex :=
  .group
    (.cat (.atom (.rune x)) (.cat (.atom (.rune y)) (.cat (.atom (.rune z))
      (.cat sepRe (.cat (.rep digitAtom 4) (.cat sepRe (.repMin digitAtom 4)))))))

/-- Source: `CVERegex`,
`(CVE(-|–)[0-9]{4}(-|–)[0-9]{4,})|(cve(-|–)[0-9]{4}(-|–)[0-9]{4,})`. -/
def CVERegex : Regex :=
  .alt (cveBranch 0x43 0x56 0x45) (cveBranch 0x63 0x76 0x65)

/-- Source: `type Repository struct`. -/
structure Repository where
  Url : GoString
  Description : GoString
  deriving DecidableEq

/-- Source: `type RepositoryResult struct`; `CVEIDs = none` is the nil slice,
which `omitempty` leaves out of the JSON. -/
structure RepositoryResult where
  CVEIDs : Option (List GoString)
  Url : GoString
  Description : GoString
  deriving DecidableEq

/-- Source: `CVEQuery.Search` and `CVEPaginationQuery.Search`, the struct a
query is decoded into (`Edges[i].Node.Repo` is kept as the `i`-th entry). -/
structure Search where
  RepositoryCount : Int
  EndCursor : GoString
  StartCursor : GoString
  Edges : List Repository
  deriving DecidableEq

/-- The zero value of `Search`, the content of both globals at start-up. -/
def Search.zero : Search := ⟨0, [], [], []⟩

/-- The `variables` map of `getRepos`: `"query"` and, for pagination, `"after"`. -/
structure Variables where
  query : GoString
  after : Option GoString

/-- The GitHub client seen from `getRepos`: `Query n vars old` is the call
`githubV4Client.Query(ctx, &target, vars)` issued after `n` earlier calls,
`old` being what `target` held before; it gives what `target` holds after the
call (fresh data, or after a failed call whatever was left there) and the
text of the error, if any. The server is free to answer each call as it
likes. -/
structure Client where
  Query : Nat → Variables → Search → Search × Option GoString

/-- The globals of `main.go` that `getRepos` works on, the number of `Query`
calls issued so far, and the lines printed to standard output. The progress
bar and `time.Sleep` are left out. -/
structure State where
  repos : List Repository
  CVEQuery : Search
  CVEPaginationQuery : Search
  calls : Nat
  stdout : List GoString

/-- The globals as `main` sets them before calling `getRepos`
(`repos = make([]Repository, 0)`). -/
def State.init : State := ⟨[], Search.zero, Search.zero, 0, []⟩

/-- Source: `fmt.Println(err)` under `if err != nil`, after each query. -/
def printErr (out : List GoString) : Option GoString → List GoString
  | none => out
  | some e => out ++ [e]

/-- The message of the early exit of the pagination loop. -/
def limitMsg : GoString := lit "\nLimit of 1000 results reached!"

/-- The pagination loop of `getRepos` at its head: the globals, the locals
`reposCnt` and `variables["after"]`, and whether the loop has been left. -/
structure Loop where
  st : State
  reposCnt : Int
  after : GoString
  exited : Bool

/-- Source: `getRepos`, lines 122-141: one pass through the loop
`for reposCnt < maxRepos`, from its head; a loop that has been left stays as
it is. -/
def loopBody (c : Client) (query : GoString) (maxRepos : Int) (l : Loop) : Loop :=
  if l.exited then l
  else if l.reposCnt < maxRepos then
    let res := c.Query l.st.calls ⟨query, some l.after⟩ l.st.CVEPaginationQuery
    let page := res.1
    let st1 : State :=
      { l.st with CVEPaginationQuery := page, calls := l.st.calls + 1,
                  stdout := printErr l.st.stdout res.2 }
    if page.Edges.length = 0 then
      { l with st := { st1 with stdout := st1.stdout ++ [limitMsg] }, exited := true }
    else
      let st2 : State := { st1 with repos := st1.repos ++ page.Edges }
      { st := st2, reposCnt := st2.repos.length, after := page.EndCursor, exited := false }
  else { l with exited := true }

/-- At most `n` passes through the pagination loop. -/
def paginate (c : Client) (query : GoString) (maxRepos : Int) : Nat → Loop → Loop
  | 0, l => l
  | n + 1, l => paginate c query maxRepos n (loopBody c query maxRepos l)

/-- Source: `getRepos`, lines 98-121: the first query, `maxRepos`, `reposCnt`,
the first page appended to `repos`, and the loop at its first head. -/
def firstPage (c : Client) (query : GoString) (st : State) : Int × Loop :=
  let res := c.Query st.calls ⟨query, none⟩ st.CVEQuery
  let st1 : State :=
    { st with CVEQuery := res.1, calls := st.calls + 1, stdout := printErr st.stdout res.2 }
  let maxRepos := st1.CVEQuery.RepositoryCount
  let reposCnt : Int := st1.repos.length
  let st2 : State := { st1 with repos := st1.repos ++ st1.CVEQuery.Edges }
  (maxRepos, { st := st2, reposCnt := reposCnt, after := st1.CVEQuery.EndCursor,
               exited := false })

/-- The state of `getRepos` after the first page and at most `n` passes
through the pagination loop. -/
def getReposUpTo (c : Client) (query : GoString) (st : State) (n : Nat) : Loop :=
  let fl := firstPage c query st
  paginate c query fl.1 n fl.2

/-- Source: `getRepos`. The loop is run for `maxRepos + 1` passes, which is
always enough for it to be left (`getRepos_eq`); `none` would mean that it
was not. -/
def getRepos (c : Client) (query : GoString) (st : State) : Option State :=
  let fl := firstPage c query st
  let l := paginate c query fl.1 (fl.1.toNat + 1) fl.2
  if l.exited then some l.st else none

/-- The `ids` map of `main` (`map[string]bool`, every value `true`): its keys,
each once, in insertion order. -/
abbrev IdMap := List GoString

/-- Source: `ids[k] = true`. -/
def IdMap.set (ids : IdMap) (k : GoString) : IdMap :=
  if k ∈ ids then ids else ids ++ [k]

/-- Source: `main`, lines 169-173, the body of the loop over the matches for
one match; `m0` is `m[0]` (the guard `m != nil && len(m) > 0` holds for every
submatch slice). -/
def addMatch (ids : IdMap) (m0 : GoString) : IdMap :=
  if m0 ≠ [] then ids.set (ReplaceAll m0 (lit "–") (lit "-")) else ids

/-- Source: `main`, lines 163 and 168-174: the `ids` map after the loop over
the matches. -/
def collectIDs (ms : List GoString) : IdMap :=
  ms.foldl addMatch []

/-- The order in which the `range` over the `ids` map of the `i`-th repository
yields the keys; Go leaves it unspecified. -/
abbrev RangeOrder := Nat → List GoString → List GoString

/-- A `range` over a map yields every key exactly once. -/
def RangeOrder.Valid (order : RangeOrder) : Prop :=
  ∀ i keys, (order i keys).Perm keys

/-- Source: `main`, lines 163-166: the `ids` map of a repository. -/
def repoIDs (repo : Repository) : IdMap :=
  collectIDs (FindAllStringSubmatch CVERegex repo.Url ++
    FindAllStringSubmatch CVERegex repo.Description)

/-- Source: `main`, lines 163-187, the body of the loop over `repos` for the
`i`-th repository. -/
def repoResult (order : RangeOrder) (i : Nat) (repo : Repository) : RepositoryResult :=
  let ids := repoIDs repo
  { CVEIDs := if ids.length > 0 then some (order i ids) else none,
    Url := repo.Url,
    Description := repo.Description }

/-- Source: `main`, lines 162-188: `reposResults` for the repositories from
index `i` on. -/
def buildResults (order : RangeOrder) : Nat → List Repository → List RepositoryResult
  | _, [] => []
  | i, repo :: rest => repoResult order i repo :: buildResults order (i + 1) rest

/-- Source: `main`, lines 192-197: the name of the output file. -/
def fileName (query : GoString) : GoString :=
  illegalFileNameChars.foldl
    (fun name char => if Contains name char then ReplaceAll name char [] else name)
    (Trim query (lit "-*"))

/-- What `main` writes: the file name and the marshalled results, or nothing
when `repos` is empty. -/
structure Report where
  fileName : GoString
  reposResults : List RepositoryResult

/-- Source: `main`. `none` only if `getRepos` did not return. -/
def main (c : Client) (order : RangeOrder) (query : GoString) : Option (Option Report) :=
  match getRepos c query State.init with
  | none => none
  | some st =>
    if st.repos.length > 0 then
      some (some ⟨fileName query, buildResults order 0 st.repos⟩)
    else some none

/-! ## Specification vocabulary and sample data -/

/-- A decimal digit `0`..`9`. -/
def isDigit (b : Nat) : Bool := 0x30 ≤ b && b ≤ 0x39

/-- Every byte of `y` is a decimal digit. -/
def AllDigits (y : GoString) : Prop := ∀ b ∈ y, isDigit b = true

/-- A separator of `CVERegex`: the hyphen, or the UTF-8 bytes of the en dash. -/
def IsSep (sep : GoString) : Prop := sep = [0x2D] ∨ sep = [0xE2, 0x80, 0x93]

/-- The texts one branch of `CVERegex` stands for: the letters `p`, a
separator, 4 digits, a separator, 4 or more digits. -/
def IsRaw (p w : GoString) : Prop :=
  ∃ sep1 y sep2 d, IsSep sep1 ∧ y.length = 4 ∧ AllDigits y ∧ IsSep sep2 ∧
    4 ≤ d.length ∧ AllDigits d ∧ w = p ++ sep1 ++ y ++ sep2 ++ d

/-- The texts `CVERegex` stands for: `CVE` or `cve`, then a hyphen or en dash,
a 4-digit year, a hyphen or en dash, and a number of 4 or more digits. -/
def IsRawCVE (w : GoString) : Prop := IsRaw (lit "CVE") w ∨ IsRaw (lit "cve") w

/-- Where some text of `CVERegex` occurs in `s`. -/
def MatchesSomewhere (s : GoString) : Prop :=
  ∃ pre w post, s = pre ++ w ++ post ∧ IsRawCVE w

/-- A CVE identifier in normal form: `CVE` or `cve`, a hyphen, 4 digits, a
hyphen, 4 or more digits. -/
def IsCVEId (id : GoString) : Prop :=
  ∃ p y d, (p = lit "CVE" ∨ p = lit "cve") ∧ y.length = 4 ∧ AllDigits y ∧
    4 ≤ d.length ∧ AllDigits d ∧ id = p ++ [0x2D] ++ y ++ [0x2D] ++ d

/-- The bytes of `illegalFileNameChars`, each entry being one ASCII byte. -/
def illegalBytes : List Nat :=
  [60, 62, 58, 34, 47, 92, 124, 63, 42, 32, 125, 123, 35, 36, 37, 33, 96, 39, 64, 61, 43]

/-- Neither the first nor the last byte of `s` is `-` or `*`. -/
def TrimmedEnds (s : GoString) : Prop :=
  s.head? ≠ some 0x2D ∧ s.head? ≠ some 0x2A ∧ s.getLast? ≠ some 0x2D ∧ s.getLast? ≠ some 0x2A

instance decTrimmedEnds (s : GoString) : Decidable (TrimmedEnds s) := by
  unfold TrimmedEnds; infer_instance

/-- The reported total: `CVEQuery.Search.RepositoryCount` after the first query
issued by `getRepos` from the start-up state. -/
def reportedTotal (c : Client) (query : GoString) : Int :=
  (firstPage c query State.init).1

/-- A search service that answers `query` from the list `served` of matching
repositories, in pages of 100: every call delivers its data (no failed call
leaves stale data behind); the first query reports `total` and gives the
first page; a query with the cursor `cur`, standing for the offset `off cur`
into `served`, gives the page that starts there (an empty page past the end);
every page's end cursor stands for the offset just after it. -/
structure Serves (c : Client) (query : GoString) (served : List Repository)
    (total : Int) (off : GoString → Nat) : Prop where
  first_count : ∀ n old, (c.Query n ⟨query, none⟩ old).1.RepositoryCount = total
  first_edges : ∀ n old, (c.Query n ⟨query, none⟩ old).1.Edges = served.take 100
  first_cursor : ∀ n old,
    off (c.Query n ⟨query, none⟩ old).1.EndCursor = (served.take 100).length
  next_edges : ∀ n cur old,
    (c.Query n ⟨query, some cur⟩ old).1.Edges = (served.drop (off cur)).take 100
  next_cursor : ∀ n cur old,
    off (c.Query n ⟨query, some cur⟩ old).1.EndCursor
      = off cur + ((served.drop (off cur)).take 100).length

/-- A search service as `Serves`, but whose pages may hold any number of
repositories up to 100: each page is the next stretch of `served`. -/
structure ServesUpTo (c : Client) (query : GoString) (served : List Repository)
    (total : Int) (off : GoString → Nat) : Prop where
  total_reported : ∀ n old, (c.Query n ⟨query, none⟩ old).1.RepositoryCount = total
  first_page : ∀ n old, (c.Query n ⟨query, none⟩ old).1.Edges <+: served
  first_len : ∀ n old, (c.Query n ⟨query, none⟩ old).1.Edges.length ≤ 100
  first_end : ∀ n old,
    off (c.Query n ⟨query, none⟩ old).1.EndCursor
      = (c.Query n ⟨query, none⟩ old).1.Edges.length
  next_page : ∀ n cur old,
    (c.Query n ⟨query, some cur⟩ old).1.Edges <+: served.drop (off cur)
  next_len : ∀ n cur old, (c.Query n ⟨query, some cur⟩ old).1.Edges.length ≤ 100
  next_end : ∀ n cur old,
    off (c.Query n ⟨query, some cur⟩ old).1.EndCursor
      = off cur + (c.Query n ⟨query, some cur⟩ old).1.Edges.length

/-- A cursor for the offset `n`: a string of `n` bytes. -/
def cursorAt (n : Nat) : GoString := List.replicate n 0x2E

/-- A sample search service: it holds `all`, reports `total`, serves the
first 1000 entries of `all` in pages of 100, and never fails. -/
def pagedClient (all : List Repository) (total : Int) : Client where
  Query := fun _ vars _ =>
    match vars.after with
    | none =>
      (⟨total, cursorAt ((all.take 1000).take 100).length, [], (all.take 1000).take 100⟩, none)
    | some cur =>
      (⟨total, cursorAt (cur.length + (((all.take 1000).drop cur.length).take 100).length),
        cur, ((all.take 1000).drop cur.length).take 100⟩, none)

/-- Sample data: `n` repositories `https://github.com/o/r....`. -/
def sampleRepos (n : Nat) : List Repository :=
  (List.range n).map fun i => ⟨lit "https://github.com/o/r" ++ cursorAt i, []⟩

/-! ## The CVE regular expression: UTF-8 decoding -/

theorem decode2_cases (s0 : Nat) (t : GoString) :
    decode2 s0 t = (RuneError, 1) ∨
    ∃ s1 t', t = s1 :: t' ∧ 0x80 ≤ s1 ∧ s1 ≤ 0xBF ∧
      decode2 s0 t = (s0 % 32 * 64 + s1 % 64, 2) := by
  unfold decode2
  split
  · rename_i s1 t'
    by_cases h : isCont s1 = true
    · right
      refine ⟨s1, t', rfl, ?_, ?_, by simp [h]⟩ <;>
        (simp only [isCont, Bool.and_eq_true, decide_eq_true_eq] at h; omega)
    · left; simp [h]
  · left; rfl

theorem decode3_cases (s0 : Nat) (t : GoString) :
    decode3 s0 t = (RuneError, 1) ∨
    ∃ s1 s2 t', t = s1 :: s2 :: t' ∧ 0x80 ≤ s1 ∧ s1 ≤ 0xBF ∧ (s0 = 0xE0 → 0xA0 ≤ s1) ∧
      0x80 ≤ s2 ∧ s2 ≤ 0xBF ∧
      decode3 s0 t = (s0 % 16 * 4096 + s1 % 64 * 64 + s2 % 64, 3) := by
  unfold decode3
  split
  · rename_i s1 s2 t'
    have hlo : 0x80 ≤ (if s0 = 0xE0 then 0xA0 else 0x80 : Nat) ∧
        (s0 = 0xE0 → (if s0 = 0xE0 then 0xA0 else 0x80 : Nat) = 0xA0) := by
      split_ifs <;> simp_all
    have hhi : (if s0 = 0xED then 0x9F else 0xBF : Nat) ≤ 0xBF := by
      split_ifs <;> simp
    generalize (if s0 = 0xE0 then 0xA0 else 0x80 : Nat) = lo at hlo ⊢
    generalize (if s0 = 0xED then 0x9F else 0xBF : Nat) = hi at hhi ⊢
    by_cases h1 : (decide (s1 < lo) || decide (hi < s1)) = true
    · left; rw [if_pos h1]
    · rw [if_neg h1]
      by_cases h2 : (!isCont s2) = true
      · left; rw [if_pos h2]
      · right
        rw [if_neg h2]
        simp only [isCont, Bool.and_eq_true, decide_eq_true_eq, Bool.or_eq_true,
          Bool.not_eq_true', Bool.and_eq_false_iff, decide_eq_false_iff_not, not_or, not_le,
          not_lt] at h1 h2
        refine ⟨s1, s2, t', rfl, by omega, by omega, ?_, by omega, by omega, rfl⟩
        intro e; have := hlo.2 e; omega
  · left; rfl

theorem decode4_cases (s0 : Nat) (t : GoString) :
    decode4 s0 t = (RuneError, 1) ∨
    ∃ s1 s2 s3 t', t = s1 :: s2 :: s3 :: t' ∧ 0x80 ≤ s1 ∧ s1 ≤ 0xBF ∧ (s0 = 0xF0 → 0x90 ≤ s1) ∧
      0x80 ≤ s2 ∧ 0x80 ≤ s3 ∧
      decode4 s0 t = (s0 % 8 * 262144 + s1 % 64 * 4096 + s2 % 64 * 64 + s3 % 64, 4) := by
  unfold decode4
  split
  · rename_i s1 s2 s3 t'
    have hlo : 0x80 ≤ (if s0 = 0xF0 then 0x90 else 0x80 : Nat) ∧
        (s0 = 0xF0 → (if s0 = 0xF0 then 0x90 else 0x80 : Nat) = 0x90) := by
      split_ifs <;> simp_all
    have hhi : (if s0 = 0xF4 then 0x8F else 0xBF : Nat) ≤ 0xBF := by
      split_ifs <;> simp
    generalize (if s0 = 0xF0 then 0x90 else 0x80 : Nat) = lo at hlo ⊢
    generalize (if s0 = 0xF4 then 0x8F else 0xBF : Nat) = hi at hhi ⊢
    by_cases h1 : (decide (s1 < lo) || decide (hi < s1)) = true
    · left; rw [if_pos h1]
    · rw [if_neg h1]
      by_cases h2 : (!isCont s2) = true
      · left; rw [if_pos h2]
      · rw [if_neg h2]
        by_cases h3 : (!isCont s3) = true
        · left; rw [if_pos h3]
        · right
          rw [if_neg h3]
          simp only [isCont, Bool.and_eq_true, decide_eq_true_eq, Bool.or_eq_true,
            Bool.not_eq_true', Bool.and_eq_false_iff, decide_eq_false_iff_not, not_or, not_le,
            not_lt] at h1 h2 h3
          refine ⟨s1, s2, s3, t', rfl, by omega, by omega, ?_, by omega, by omega, rfl⟩
          intro e; have := hlo.2 e; omega
  · left; rfl

theorem decodeRune_cons (b : Nat) (t : GoString) :
    decodeRune (b :: t) =
      if b < 0x80 then (b, 1)
      else if b < 0xC2 then (RuneError, 1)
      else if b < 0xE0 then decode2 b t
      else if b < 0xF0 then decode3 b t
      else if b < 0xF5 then decode4 b t
      else (RuneError, 1) := rfl

/-- The cases of `decodeRune` on a non-empty string: an ASCII byte, an invalid
encoding, or a rune above 0x7F decoded from 2 to 4 bytes, those after the
first all above 0x7F; U+2013 comes from E2 80 93 only. -/
theorem decodeRune_cases (b : Nat) (t : GoString) :
    (b < 0x80 ∧ decodeRune (b :: t) = (b, 1)) ∨
    (0x80 ≤ b ∧ decodeRune (b :: t) = (RuneError, 1)) ∨
    (0x80 ≤ b ∧ ∃ r w, decodeRune (b :: t) = (r, w) ∧ 0x80 ≤ r ∧
      (r = 0x2013 → ∃ t', t = 0x80 :: 0x93 :: t' ∧ b = 0xE2 ∧ w = 3) ∧
      ((w = 2 ∧ ∃ s1 t', t = s1 :: t' ∧ 0x80 ≤ s1) ∨
       (w = 3 ∧ ∃ s1 s2 t', t = s1 :: s2 :: t' ∧ 0x80 ≤ s1 ∧ 0x80 ≤ s2) ∨
       (w = 4 ∧ ∃ s1 s2 s3 t', t = s1 :: s2 :: s3 :: t' ∧ 0x80 ≤ s1 ∧ 0x80 ≤ s2 ∧ 0x80 ≤ s3))) := by
  rw [decodeRune_cons]
  split_ifs with h1 h2 h3 h4 h5
  · left; exact ⟨h1, rfl⟩
  · right; left; exact ⟨by omega, rfl⟩
  · rcases decode2_cases b t with h | ⟨s1, t', rfl, ha, hb, h⟩
    · right; left; exact ⟨by omega, h⟩
    · right; right
      refine ⟨by omega, _, _, h, by omega, ?_, ?_⟩
      · intro e; omega
      · left; exact ⟨rfl, s1, t', rfl, ha⟩
  · rcases decode3_cases b t with h | ⟨s1, s2, t', rfl, ha, hb, hc, hd, he, h⟩
    · right; left; exact ⟨by omega, h⟩
    · right; right
      refine ⟨by omega, _, _, h, ?_, ?_, ?_⟩
      · by_cases e : b = 0xE0
        · have := hc e; omega
        · omega
      · intro e
        have e1 : b = 0xE2 := by omega
        have e2 : s1 = 0x80 := by omega
        have e3 : s2 = 0x93 := by omega
        subst e1 e2 e3
        exact ⟨t', rfl, rfl, rfl⟩
      · right; left; exact ⟨rfl, s1, s2, t', rfl, ha, hd⟩
  · rcases decode4_cases b t with h | ⟨s1, s2, s3, t', rfl, ha, hb, hc, hd, he, h⟩
    · right; left; exact ⟨by omega, h⟩
    · right; right
      refine ⟨by omega, _, _, h, ?_, ?_, ?_⟩
      · by_cases e : b = 0xF0
        · have := hc e; omega
        · omega
      · intro e
        exfalso
        by_cases e' : b = 0xF0
        · have := hc e'; omega
        · omega
      · right; right; exact ⟨rfl, s1, s2, s3, t', rfl, ha, hd, he⟩
  · right; left; exact ⟨by omega, rfl⟩

theorem decodeRune_ascii (b : Nat) (t : GoString) (h : b < 0x80) :
    decodeRune (b :: t) = (b, 1) := by
  simp [decodeRune, h]

theorem decodeRune_enDash (t : GoString) :
    decodeRune (0xE2 :: 0x80 :: 0x93 :: t) = (0x2013, 3) := by
  simp [decodeRune, decode3, isCont]

/-- A rune below 0x80 is decoded from one byte only, the byte itself. -/
theorem decodeRune_lt (b : Nat) (t : GoString) (h : (decodeRune (b :: t)).1 < 0x80) :
    b < 0x80 := by
  rcases decodeRune_cases b t with h1 | h1 | ⟨_, r, w, h1, h2, _⟩
  · exact h1.1
  · rw [h1.2] at h; simp [RuneError] at h
  · rw [h1] at h; simp only at h; omega

/-- The rune U+2013 is decoded from the three bytes E2 80 93 only. -/
theorem decodeRune_eq_enDash (s : GoString) (h : (decodeRune s).1 = 0x2013) :
    ∃ t, s = 0xE2 :: 0x80 :: 0x93 :: t := by
  cases s with
  | nil => simp [decodeRune, RuneError] at h
  | cons b t =>
    rcases decodeRune_cases b t with h1 | h1 | ⟨_, r, w, h1, _, h3, _⟩
    · rw [h1.2] at h; simp only at h; omega
    · rw [h1.2] at h; simp [RuneError] at h
    · rw [h1] at h; simp only at h
      obtain ⟨t', rfl, rfl, _⟩ := h3 h
      exact ⟨t', rfl⟩

/-! ## The CVE regular expression: the matcher -/

theorem matchAtom_nil (a : Atom) (k : GoString → Option GoString) :
    matchAtom a k [] = none := rfl

theorem matchAtom_rune_ascii (r : Nat) (hr : r < 0x80) (k : GoString → Option GoString)
    (b : Nat) (t : GoString) :
    matchAtom (.rune r) k (b :: t) = if b = r then k t else none := by
  by_cases hb : b < 0x80
  · simp [matchAtom, step, decodeRune_ascii b t hb, Atom.accepts]
  · have h1 : ¬ (decodeRune (b :: t)).1 < 0x80 := fun h => hb (decodeRune_lt b t h)
    have h2 : ¬ (decodeRune (b :: t)).1 = r := by omega
    have h3 : ¬ b = r := by omega
    simp [matchAtom, step, Atom.accepts, h2, h3]

theorem matchAtom_digit (k : GoString → Option GoString) (b : Nat) (t : GoString) :
    matchAtom digitAtom k (b :: t) = if isDigit b then k t else none := by
  by_cases hb : b < 0x80
  · simp [matchAtom, step, decodeRune_ascii b t hb, Atom.accepts, digitAtom, isDigit]
  · have h1 : ¬ (decodeRune (b :: t)).1 < 0x80 := fun h => hb (decodeRune_lt b t h)
    have h2 : ¬ (decodeRune (b :: t)).1 ≤ 0x39 := by omega
    have h3 : ¬ b ≤ 0x39 := by omega
    simp [matchAtom, step, Atom.accepts, digitAtom, isDigit, h2, h3]

theorem matchAtom_enDash_some (k : GoString → Option GoString) (s x : GoString) :
    matchAtom (.rune enDash) k s = some x ↔ ∃ t, s = 0xE2 :: 0x80 :: 0x93 :: t ∧ k t = some x := by
  constructor
  · intro h
    cases s with
    | nil => simp [matchAtom_nil] at h
    | cons b u =>
      simp only [matchAtom, step, Atom.accepts, enDash] at h
      by_cases hd : (decodeRune (b :: u)).1 = 0x2013
      · obtain ⟨t, ht⟩ := decodeRune_eq_enDash _ hd
        refine ⟨t, ht, ?_⟩
        rw [ht, decodeRune_enDash] at h
        simpa using h
      · simp [hd] at h
  · rintro ⟨t, rfl, hk⟩
    simp [matchAtom, step, decodeRune_enDash, Atom.accepts, enDash, hk]

theorem matchAtom_rune_some (r : Nat) (hr : r < 0x80) (k : GoString → Option GoString)
    (s x : GoString) :
    matchAtom (.rune r) k s = some x ↔ ∃ t, s = r :: t ∧ k t = some x := by
  cases s with
  | nil => simp [matchAtom_nil]
  | cons b t =>
    rw [matchAtom_rune_ascii r hr]
    by_cases h : b = r
    · subst h; simp
    · simp [h]

theorem matchAtom_digit_some (k : GoString → Option GoString) (s x : GoString) :
    matchAtom digitAtom k s = some x ↔
      ∃ b t, s = b :: t ∧ isDigit b = true ∧ k t = some x := by
  cases s with
  | nil => simp [matchAtom_nil]
  | cons b t =>
    rw [matchAtom_digit]
    by_cases h : isDigit b = true
    · rw [if_pos h]
      constructor
      · intro hk; exact ⟨b, t, rfl, h, hk⟩
      · rintro ⟨b', t', he, _, hk⟩
        obtain ⟨rfl, rfl⟩ := List.cons.inj he
        exact hk
    · rw [if_neg h]
      constructor
      · intro hk; cases hk
      · rintro ⟨b', t', he, hb, _⟩
        obtain ⟨rfl, rfl⟩ := List.cons.inj he
        exact absurd hb h

theorem run_alt_some (a b : Regex) (k : GoString → Option GoString) (s x : GoString) :
    run (.alt a b) k s = some x ↔
      run a k s = some x ∨ (run a k s = none ∧ run b k s = some x) := by
  simp only [run]
  cases h : run a k s with
  | none => simp
  | some r => simp

theorem run_sepRe_some (k : GoString → Option GoString) (s x : GoString) :
    run sepRe k s = some x ↔ ∃ sep t, IsSep sep ∧ s = sep ++ t ∧ k t = some x := by
  have hh : matchAtom (.rune hyphen) k s = some x ↔ ∃ t, s = 0x2D :: t ∧ k t = some x :=
    matchAtom_rune_some 0x2D (by decide) k s x
  unfold sepRe
  simp only [run]
  constructor
  · intro h
    cases h1 : matchAtom (.rune hyphen) k s with
    | some r =>
      rw [h1] at h
      simp only [Option.some.injEq] at h
      subst h
      obtain ⟨t, rfl, hk⟩ := (matchAtom_rune_some 0x2D (by decide) k s r).1 h1
      exact ⟨[0x2D], t, Or.inl rfl, rfl, hk⟩
    | none =>
      rw [h1] at h
      obtain ⟨t, rfl, hk⟩ := (matchAtom_enDash_some k s x).1 h
      exact ⟨[0xE2, 0x80, 0x93], t, Or.inr rfl, rfl, hk⟩
  · rintro ⟨sep, t, hsep | hsep, rfl, hk⟩
    · subst hsep
      have : matchAtom (.rune hyphen) k ([0x2D] ++ t) = some x :=
        (matchAtom_rune_some 0x2D (by decide) k _ x).2 ⟨t, rfl, hk⟩
      rw [this]
    · subst hsep
      have h1 : matchAtom (.rune hyphen) k ([0xE2, 0x80, 0x93] ++ t) = none := by
        have := matchAtom_rune_ascii 0x2D (by decide) k 0xE2 (0x80 :: 0x93 :: t)
        simpa [hyphen] using this
      rw [h1]
      exact (matchAtom_enDash_some k _ x).2 ⟨t, rfl, hk⟩

theorem matchRep_digit_some (k : GoString → Option GoString) (n : Nat) :
    ∀ s x : GoString, matchRep digitAtom k n s = some x ↔
      ∃ y t, y.length = n ∧ AllDigits y ∧ s = y ++ t ∧ k t = some x := by
  induction n with
  | zero =>
    intro s x
    simp only [matchRep]
    constructor
    · intro h; exact ⟨[], s, rfl, by simp [AllDigits], rfl, h⟩
    · rintro ⟨y, t, hy, _, rfl, hk⟩
      have : y = [] := List.length_eq_zero.1 hy
      subst this; exact hk
  | succ n ih =>
    intro s x
    simp only [matchRep]
    rw [matchAtom_digit_some]
    constructor
    · rintro ⟨b, t, rfl, hb, h⟩
      obtain ⟨y, u, hy, hd, rfl, hk⟩ := (ih t x).1 h
      refine ⟨b :: y, u, by simp [hy], ?_, rfl, hk⟩
      intro c hc
      rcases List.mem_cons.1 hc with rfl | hc
      · exact hb
      · exact hd c hc
    · rintro ⟨y, u, hy, hd, rfl, hk⟩
      cases y with
      | nil => simp at hy
      | cons b y =>
        refine ⟨b, y ++ u, rfl, hd b (List.mem_cons_self _ _), ?_⟩
        exact (ih _ x).2 ⟨y, u, by simpa using hy, fun c hc => hd c (List.mem_cons_of_mem _ hc),
          rfl, hk⟩

/-- Greedy `[0-9]*` at the end of the expression takes every digit there is. -/
theorem matchStar_digit (n : Nat) : ∀ s : GoString, s.length ≤ n →
    matchStar digitAtom some n s = some (s.dropWhile isDigit) := by
  induction n with
  | zero =>
    intro s h
    have : s = [] := List.length_eq_zero.1 (Nat.le_zero.1 h)
    subst this; rfl
  | succ n ih =>
    intro s h
    cases s with
    | nil => simp [matchStar, matchAtom_nil]
    | cons b t =>
      simp only [matchStar, matchAtom_digit]
      by_cases hb : isDigit b = true
      · rw [if_pos hb, ih t (by simpa using h), List.dropWhile_cons_of_pos hb]
      · rw [if_neg hb, List.dropWhile_cons_of_neg hb]

theorem dropWhile_append_all (p : Nat → Bool) (l₁ l₂ : List Nat) (h : ∀ b ∈ l₁, p b = true) :
    (l₁ ++ l₂).dropWhile p = l₂.dropWhile p := by
  induction l₁ with
  | nil => rfl
  | cons a t ih =>
    rw [List.cons_append, List.dropWhile_cons_of_pos (h a (List.mem_cons_self _ _))]
    exact ih fun b hb => h b (List.mem_cons_of_mem _ hb)

theorem allDigits_takeWhile (t : GoString) : AllDigits (t.takeWhile isDigit) := by
  intro b hb
  exact (List.mem_takeWhile_imp hb)

theorem run_atom (a : Atom) (k : GoString → Option GoString) (s : GoString) :
    run (.atom a) k s = matchAtom a k s := rfl

theorem run_cat (a b : Regex) (k : GoString → Option GoString) (s : GoString) :
    run (.cat a b) k s = run a (run b k) s := rfl

theorem run_group (a : Regex) (k : GoString → Option GoString) (s : GoString) :
    run (.group a) k s = run a k s := rfl

theorem run_rep (a : Atom) (n : Nat) (k : GoString → Option GoString) (s : GoString) :
    run (.rep a n) k s = matchRep a k n s := rfl

theorem run_repMin (a : Atom) (n : Nat) (k : GoString → Option GoString) (s : GoString) :
    run (.repMin a n) k s = matchRep a (fun t => matchStar a k t.length t) n s := rfl

theorem run_cveBranch_some (a b c : Nat) (ha : a < 0x80) (hb : b < 0x80) (hc : c < 0x80)
    (s rest : GoString) :
    run (cveBranch a b c) some s = some rest ↔
      ∃ w, IsRaw [a, b, c] w ∧ s = w ++ rest ∧ rest.dropWhile isDigit = rest := by
  unfold cveBranch
  simp only [run_atom, run_cat, run_group, run_rep, run_repMin, matchAtom_rune_some _ ha, matchAtom_rune_some _ hb, matchAtom_rune_some _ hc,
    run_sepRe_some, matchRep_digit_some]
  constructor
  · rintro ⟨t1, rfl, t2, rfl, t3, rfl, sep1, t4, hs1, rfl, y, t5, hy, hyd, rfl, sep2, t6, hs2, rfl,
      d4, t7, hd, hdd, rfl, hk⟩
    rw [matchStar_digit _ _ (le_refl _)] at hk
    simp only [Option.some.injEq] at hk
    refine ⟨[a, b, c] ++ sep1 ++ y ++ sep2 ++ (d4 ++ t7.takeWhile isDigit),
      ⟨sep1, y, sep2, d4 ++ t7.takeWhile isDigit, hs1, hy, hyd, hs2, ?_, ?_, rfl⟩, ?_, ?_⟩
    · rw [List.length_append]; omega
    · intro x hx
      rcases List.mem_append.1 hx with hx | hx
      · exact hdd x hx
      · exact allDigits_takeWhile t7 x hx
    · rw [← hk]
      conv_lhs => rw [← List.takeWhile_append_dropWhile isDigit t7]
      simp [List.append_assoc]
    · rw [← hk]
      cases hh : t7.dropWhile isDigit with
      | nil => rfl
      | cons x u =>
        have := List.head_dropWhile_not isDigit t7 (by rw [hh]; simp)
        simp only [hh, List.head_cons] at this
        rw [List.dropWhile_cons_of_neg (by simpa using this)]
  · rintro ⟨w, ⟨sep1, y, sep2, d, hs1, hy, hyd, hs2, hd, hdd, rfl⟩, rfl, hrest⟩
    refine ⟨b :: c :: (sep1 ++ y ++ sep2 ++ d ++ rest), by simp [List.append_assoc],
      c :: (sep1 ++ y ++ sep2 ++ d ++ rest), rfl, sep1 ++ y ++ sep2 ++ d ++ rest, rfl,
      sep1, y ++ sep2 ++ d ++ rest, hs1, by simp [List.append_assoc],
      y, sep2 ++ d ++ rest, hy, hyd, by simp [List.append_assoc],
      sep2, d ++ rest, hs2, by simp [List.append_assoc],
      d.take 4, d.drop 4 ++ rest, ?_, ?_, ?_, ?_⟩
    · rw [List.length_take]; omega
    · intro x hx; exact hdd x (List.mem_of_mem_take hx)
    · rw [← List.append_assoc, List.take_append_drop]
    · rw [matchStar_digit _ _ (le_refl _),
        dropWhile_append_all _ _ _ (fun x hx => hdd x (List.mem_of_mem_drop hx)), hrest]

theorem lit_CVE : lit "CVE" = [0x43, 0x56, 0x45] := by decide

theorem lit_cve : lit "cve" = [0x63, 0x76, 0x65] := by decide

theorem isRaw_length_ge {p w : GoString} (h : IsRaw p w) : p.length + 10 ≤ w.length := by
  obtain ⟨sep1, y, sep2, d, hs1, hy, _, hs2, hd, _, rfl⟩ := h
  have h1 : 1 ≤ sep1.length := by rcases hs1 with rfl | rfl <;> simp
  have h2 : 1 ≤ sep2.length := by rcases hs2 with rfl | rfl <;> simp
  simp only [List.length_append]
  omega

theorem isRaw_append_digits {p w e : GoString} (h : IsRaw p w) (he : AllDigits e) :
    IsRaw p (w ++ e) := by
  obtain ⟨sep1, y, sep2, d, hs1, hy, hyd, hs2, hd, hdd, rfl⟩ := h
  refine ⟨sep1, y, sep2, d ++ e, hs1, hy, hyd, hs2, ?_, ?_, by simp [List.append_assoc]⟩
  · rw [List.length_append]; omega
  · intro x hx
    rcases List.mem_append.1 hx with hx | hx
    · exact hdd x hx
    · exact he x hx

theorem isRawCVE_length_ge {w : GoString} (h : IsRawCVE w) : 13 ≤ w.length := by
  rcases h with h | h
  · have := isRaw_length_ge h; rw [lit_CVE] at this; simpa using this
  · have := isRaw_length_ge h; rw [lit_cve] at this; simpa using this

theorem isRawCVE_append_digits {w e : GoString} (h : IsRawCVE w) (he : AllDigits e) :
    IsRawCVE (w ++ e) := by
  rcases h with h | h
  · exact Or.inl (isRaw_append_digits h he)
  · exact Or.inr (isRaw_append_digits h he)

/-- A text of `CVERegex` begins with `C` or `c`. -/
theorem isRawCVE_head {w : GoString} (h : IsRawCVE w) :
    ∃ u, w = 0x43 :: u ∨ w = 0x63 :: u := by
  rcases h with h | h
  · obtain ⟨sep1, y, sep2, d, _, _, _, _, _, _, rfl⟩ := h
    rw [lit_CVE]; exact ⟨_, Or.inl (by simp [List.append_assoc]; rfl)⟩
  · obtain ⟨sep1, y, sep2, d, _, _, _, _, _, _, rfl⟩ := h
    rw [lit_cve]; exact ⟨_, Or.inr (by simp [List.append_assoc]; rfl)⟩

/-- The matcher on `CVERegex`: it succeeds exactly on a text of the
expression followed by something that does not start with a digit. -/
theorem run_CVERegex_some (s rest : GoString) :
    run CVERegex some s = some rest ↔
      ∃ w, IsRawCVE w ∧ s = w ++ rest ∧ rest.dropWhile isDigit = rest := by
  have h1 := run_cveBranch_some 0x43 0x56 0x45 (by decide) (by decide) (by decide) s
  have h2 := run_cveBranch_some 0x63 0x76 0x65 (by decide) (by decide) (by decide) s rest
  unfold CVERegex
  rw [run_alt_some, h1 rest, h2]
  constructor
  · rintro (⟨w, hw, hs, hr⟩ | ⟨_, w, hw, hs, hr⟩)
    · exact ⟨w, Or.inl (by rw [lit_CVE]; exact hw), hs, hr⟩
    · exact ⟨w, Or.inr (by rw [lit_cve]; exact hw), hs, hr⟩
  · rintro ⟨w, hw | hw, hs, hr⟩
    · left; exact ⟨w, by rw [lit_CVE] at hw; exact hw, hs, hr⟩
    · right
      refine ⟨?_, w, by rw [lit_cve] at hw; exact hw, hs, hr⟩
      cases hn : run (cveBranch 0x43 0x56 0x45) some s with
      | none => rfl
      | some r =>
        exfalso
        obtain ⟨w', hw', hs', _⟩ := (h1 r).1 hn
        obtain ⟨_, _, _, _, _, _, _, _, _, _, rfl⟩ := hw'
        obtain ⟨_, _, _, _, _, _, _, _, _, _, rfl⟩ := hw
        rw [hs', lit_cve] at hs
        simp at hs

theorem matchLen_CVERegex_some (s : GoString) (n : Nat) :
    matchLen CVERegex s = some n ↔
      ∃ w rest, IsRawCVE w ∧ s = w ++ rest ∧ rest.dropWhile isDigit = rest ∧ n = w.length := by
  unfold matchLen
  constructor
  · intro h
    cases hr : run CVERegex some s with
    | none => rw [hr] at h; simp at h
    | some rest =>
      rw [hr] at h
      obtain ⟨w, hw, hs, hd⟩ := (run_CVERegex_some s rest).1 hr
      refine ⟨w, rest, hw, hs, hd, ?_⟩
      simp only [Option.map_some', Option.some.injEq] at h
      rw [← h, hs, List.length_append]; omega
  · rintro ⟨w, rest, hw, hs, hd, rfl⟩
    rw [(run_CVERegex_some s rest).2 ⟨w, hw, hs, hd⟩]
    simp only [Option.map_some', Option.some.injEq]
    rw [hs, List.length_append]; omega

theorem dropWhile_idem (p : Nat → Bool) (l : List Nat) :
    (l.dropWhile p).dropWhile p = l.dropWhile p := by
  induction l with
  | nil => rfl
  | cons a t ih =>
    by_cases h : p a = true
    · rw [List.dropWhile_cons_of_pos h]; exact ih
    · rw [List.dropWhile_cons_of_neg h, List.dropWhile_cons_of_neg h]

/-- Wherever a text of `CVERegex` starts, the matcher succeeds (greedily). -/
theorem matchLen_CVERegex_of_raw (w post : GoString) (h : IsRawCVE w) :
    ∃ n, matchLen CVERegex (w ++ post) = some n := by
  refine ⟨(w ++ post.takeWhile isDigit).length, ?_⟩
  rw [matchLen_CVERegex_some]
  refine ⟨w ++ post.takeWhile isDigit, post.dropWhile isDigit,
    isRawCVE_append_digits h (allDigits_takeWhile post), ?_, dropWhile_idem _ _, rfl⟩
  rw [List.append_assoc, List.takeWhile_append_dropWhile]

/-- On a text of `CVERegex`, the match is the whole text. -/
theorem matchLen_CVERegex_raw (w : GoString) (h : IsRawCVE w) :
    matchLen CVERegex w = some w.length := by
  rw [matchLen_CVERegex_some]
  exact ⟨w, [], h, by simp, rfl, rfl⟩

theorem matchLen_CVERegex_nil : matchLen CVERegex [] = none := by decide

/-- No match starts at a byte other than `C` or `c`. -/
theorem matchLen_CVERegex_head (x : Nat) (u : GoString) (hx : x ≠ 0x43 ∧ x ≠ 0x63) :
    matchLen CVERegex (x :: u) = none := by
  cases h : matchLen CVERegex (x :: u) with
  | none => rfl
  | some n =>
    exfalso
    obtain ⟨w, rest, hw, hs, _, _⟩ := (matchLen_CVERegex_some _ n).1 h
    obtain ⟨v, hv | hv⟩ := isRawCVE_head hw
    · rw [hv] at hs; simp at hs; exact hx.1 hs.1
    · rw [hv] at hs; simp at hs; exact hx.2 hs.1

/-! ## The CVE regular expression: the search -/

/-- A match found by the search loop is a match of the anchored matcher at
its start. -/
theorem searchFrom_some (re : Regex) (fuel : Nat) :
    ∀ (t : GoString) (pos b e : Nat), searchFrom re fuel t pos = some (b, e) →
      ∃ k n, b = pos + k ∧ e = b + n ∧ matchLen re (t.drop k) = some n := by
  induction fuel with
  | zero => intro t pos b e h; simp [searchFrom] at h
  | succ fuel ih =>
    intro t pos b e h
    simp only [searchFrom] at h
    cases hm : matchLen re t with
    | some n =>
      rw [hm] at h
      simp only [Option.some.injEq, Prod.mk.injEq] at h
      exact ⟨0, n, by omega, by omega, by simpa using hm⟩
    | none =>
      rw [hm] at h
      cases hs : step t with
      | none => rw [hs] at h; simp at h
      | some rw =>
        rw [hs] at h
        obtain ⟨k, n, hb, he, hk⟩ := ih _ _ _ _ h
        refine ⟨rw.2 + k, n, by omega, he, ?_⟩
        rw [List.drop_drop] at hk
        exact hk

theorem doExecute_some (re : Regex) (s : GoString) (pos b e : Nat)
    (h : doExecute re s pos = some (b, e)) :
    ∃ n, pos ≤ b ∧ e = b + n ∧ matchLen re (s.drop b) = some n := by
  obtain ⟨k, n, hb, he, hk⟩ := searchFrom_some re _ _ _ _ _ h
  rw [List.drop_drop] at hk
  refine ⟨n, by omega, he, ?_⟩
  rw [hb]; exact hk

theorem allMatches_mem (re : Regex) (s : GoString) (n : Nat) (fuel : Nat) :
    ∀ (pos i : Nat) (prev : Int) (b e : Nat),
      (b, e) ∈ allMatches re s n fuel pos i prev →
      ∃ len, e = b + len ∧ matchLen re (s.drop b) = some len := by
  induction fuel with
  | zero => intro pos i prev b e h; simp [allMatches] at h
  | succ fuel ih =>
    intro pos i prev b e h
    simp only [allMatches] at h
    split_ifs at h with hc
    · cases hd : doExecute re s pos with
      | none => rw [hd] at h; simp at h
      | some be =>
        obtain ⟨b', e'⟩ := be
        rw [hd] at h
        simp only at h
        by_cases h1 : e' = pos ∧ (b' : Int) = prev
        · rw [if_pos h1] at h
          exact ih _ _ _ _ _ h
        · rw [if_neg h1] at h
          rcases List.mem_cons.1 h with h | h
          · obtain ⟨rfl, rfl⟩ := Prod.mk.inj h
            obtain ⟨len, _, he, hm⟩ := doExecute_some re s pos _ _ hd
            exact ⟨len, he, hm⟩
          · exact ih _ _ _ _ _ h
    · simp at h

/-- Every match `FindAllStringSubmatch` returns for `CVERegex` is a text of
the expression, standing somewhere in `s`. -/
theorem findAll_mem (s m : GoString) (h : m ∈ FindAllStringSubmatch CVERegex s) :
    IsRawCVE m ∧ ∃ pre post, s = pre ++ m ++ post := by
  unfold FindAllStringSubmatch at h
  obtain ⟨⟨b, e⟩, hbe, rfl⟩ := List.mem_map.1 h
  obtain ⟨len, he, hm⟩ := allMatches_mem CVERegex s _ _ _ _ _ _ _ hbe
  obtain ⟨w, rest, hw, hs, _, rfl⟩ := (matchLen_CVERegex_some _ _).1 hm
  have : (List.drop b s).take (e - b) = w := by
    rw [hs, he]; simp
  simp only [this]
  refine ⟨hw, s.take b, rest, ?_⟩
  rw [List.append_assoc, ← hs, List.take_append_drop]

/-- `FindAllStringSubmatch` returns no match exactly when the first search
finds none. -/
theorem findAll_eq_nil (re : Regex) (s : GoString) :
    FindAllStringSubmatch re s = [] ↔ doExecute re s 0 = none := by
  unfold FindAllStringSubmatch
  rw [List.map_eq_nil_iff]
  simp only [allMatches]
  cases hd : doExecute re s 0 with
  | none => simp
  | some be =>
    obtain ⟨b, e⟩ := be
    have : ¬ ((b : Int) = -1) := by omega
    simp [this]

/-- The search loop steps over whole runes; on `CVERegex` it misses no match,
the bytes it steps over being above 0x7F. -/
theorem searchFrom_CVERegex_none (fuel : Nat) :
    ∀ (t : GoString) (pos : Nat), t.length < fuel →
      (searchFrom CVERegex fuel t pos = none ↔ ∀ k, matchLen CVERegex (t.drop k) = none) := by
  induction fuel with
  | zero => intro t pos h; omega
  | succ fuel ih =>
    intro t pos hfuel
    simp only [searchFrom]
    cases hm : matchLen CVERegex t with
    | some n =>
      constructor
      · intro h; cases h
      · intro h
        have := h 0
        rw [List.drop_zero, hm] at this
        cases this
    | none =>
      cases t with
      | nil =>
        simp only [step, true_iff]
        intro k; simpa using hm
      | cons b u =>
        simp only [step]
        have hlen : u.length < fuel := by simpa using hfuel
        have key : ∀ w, 1 ≤ w →
            (∀ j, 0 < j → j < w → matchLen CVERegex ((b :: u).drop j) = none) →
            (searchFrom CVERegex fuel ((b :: u).drop w) (pos + w) = none ↔
              ∀ k, matchLen CVERegex ((b :: u).drop k) = none) := by
          intro w hw hskip
          rw [ih _ _ (by rw [List.length_drop]; simp; omega)]
          constructor
          · intro h k
            rcases Nat.lt_or_ge k w with hk | hk
            · rcases Nat.eq_zero_or_pos k with rfl | hk0
              · simpa using hm
              · exact hskip k hk0 hk
            · have := h (k - w)
              rw [List.drop_drop] at this
              rw [← this]; congr 2; omega
          · intro h k
            rw [List.drop_drop]; exact h _
        rcases decodeRune_cases b u with h1 | h1 | ⟨_, r, w, h1, _, _, hw⟩
        · rw [h1.2]; exact key 1 (le_refl _) (fun j h0 hj => by omega)
        · rw [h1.2]; exact key 1 (le_refl _) (fun j h0 hj => by omega)
        · rw [h1]
          rcases hw with ⟨rfl, s1, t', rfl, hs1⟩ | ⟨rfl, s1, s2, t', rfl, hs1, hs2⟩ |
            ⟨rfl, s1, s2, s3, t', rfl, hs1, hs2, hs3⟩
          · refine key 2 (by omega) (fun j h0 hj => ?_)
            obtain rfl : j = 1 := by omega
            exact matchLen_CVERegex_head _ _ (by omega)
          · refine key 3 (by omega) (fun j h0 hj => ?_)
            obtain rfl | rfl : j = 1 ∨ j = 2 := by omega
            · exact matchLen_CVERegex_head _ _ (by omega)
            · exact matchLen_CVERegex_head _ _ (by omega)
          · refine key 4 (by omega) (fun j h0 hj => ?_)
            obtain rfl | rfl | rfl : j = 1 ∨ j = 2 ∨ j = 3 := by omega
            · exact matchLen_CVERegex_head _ _ (by omega)
            · exact matchLen_CVERegex_head _ _ (by omega)
            · exact matchLen_CVERegex_head _ _ (by omega)

theorem matchesSomewhere_iff (s : GoString) :
    MatchesSomewhere s ↔ ∃ k n, matchLen CVERegex (s.drop k) = some n := by
  constructor
  · rintro ⟨pre, w, post, rfl, hw⟩
    obtain ⟨n, hn⟩ := matchLen_CVERegex_of_raw w post hw
    refine ⟨pre.length, n, ?_⟩
    rw [List.append_assoc, List.drop_left]; exact hn
  · rintro ⟨k, n, h⟩
    obtain ⟨w, rest, hw, hs, _, _⟩ := (matchLen_CVERegex_some _ _).1 h
    refine ⟨s.take k, w, rest, ?_, hw⟩
    rw [List.append_assoc, ← hs, List.take_append_drop]

/-- `FindAllStringSubmatch` with `CVERegex` returns no match exactly for the
strings in which no text of the expression occurs. -/
theorem findAll_CVERegex_eq_nil (s : GoString) :
    FindAllStringSubmatch CVERegex s = [] ↔ ¬ MatchesSomewhere s := by
  rw [findAll_eq_nil, matchesSomewhere_iff]
  unfold doExecute
  rw [searchFrom_CVERegex_none _ _ _ (by simp)]
  simp only [List.drop_zero, not_exists]
  constructor
  · intro h k n hn; rw [h k] at hn; cases hn
  · intro h k
    cases hm : matchLen CVERegex (s.drop k) with
    | none => rfl
    | some n => exact absurd hm (h k n)

/-- On a text of `CVERegex`, `FindAllStringSubmatch` returns that text alone. -/
theorem findAll_CVERegex_raw (w : GoString) (h : IsRawCVE w) :
    FindAllStringSubmatch CVERegex w = [w] := by
  have hlen := isRawCVE_length_ge h
  have h0 : doExecute CVERegex w 0 = some (0, w.length) := by
    unfold doExecute
    simp only [Nat.sub_zero, List.drop_zero, searchFrom, matchLen_CVERegex_raw w h, Nat.zero_add]
  have h1 : doExecute CVERegex w w.length = none := by
    unfold doExecute
    simp [searchFrom, matchLen_CVERegex_nil, step]
  have hne : ¬ w.length = 0 := by omega
  unfold FindAllStringSubmatch
  simp only [allMatches, h0, h1, hne, false_and, if_false]
  simp

/-! ## The iteration bounds of the matcher are large enough -/

theorem decodeRune_width_pos (b : Nat) (t : GoString) : 1 ≤ (decodeRune (b :: t)).2 := by
  rcases decodeRune_cases b t with h | h | ⟨_, r, w, h, _, _, hw⟩
  · rw [h.2]
  · rw [h.2]
  · rw [h]
    rcases hw with ⟨rfl, _⟩ | ⟨rfl, _⟩ | ⟨rfl, _⟩ <;> simp

theorem matchStar_nil (a : Atom) (k : GoString → Option GoString) (n : Nat) :
    matchStar a k n [] = k [] := by
  cases n with
  | zero => rfl
  | succ n => simp [matchStar, matchAtom_nil]

/-- The greedy loop never needs more iterations than the input has bytes. -/
theorem matchStar_fuel (a : Atom) (k : GoString → Option GoString) (n : Nat) :
    ∀ (m : Nat) (s : GoString), s.length ≤ n → s.length ≤ m →
      matchStar a k n s = matchStar a k m s := by
  induction n with
  | zero =>
    intro m s hn _
    have : s = [] := List.length_eq_zero.1 (Nat.le_zero.1 hn)
    subst this
    rw [matchStar_nil, matchStar_nil]
  | succ n ih =>
    intro m s hn hm
    cases s with
    | nil => rw [matchStar_nil, matchStar_nil]
    | cons b u =>
      cases m with
      | zero => simp at hm
      | succ m =>
        have hw := decodeRune_width_pos b u
        have hdrop : ((b :: u).drop (decodeRune (b :: u)).2).length ≤ u.length := by
          rw [List.length_drop]; simp; omega
        have hun : u.length ≤ n := by simpa using hn
        have hum : u.length ≤ m := by simpa using hm
        simp only [matchStar, matchAtom, step]
        rw [ih m _ (le_trans hdrop hun) (le_trans hdrop hum)]

/-- The search loop never needs more rounds than the text has bytes, plus one. -/
theorem searchFrom_fuel (re : Regex) (f1 : Nat) :
    ∀ (f2 : Nat) (t : GoString) (pos : Nat), t.length < f1 → t.length < f2 →
      searchFrom re f1 t pos = searchFrom re f2 t pos := by
  induction f1 with
  | zero => intro f2 t pos h; omega
  | succ f1 ih =>
    intro f2 t pos h1 h2
    cases f2 with
    | zero => omega
    | succ f2 =>
      simp only [searchFrom]
      cases matchLen re t with
      | some n => rfl
      | none =>
        cases t with
        | nil => rfl
        | cons b u =>
          have hw := decodeRune_width_pos b u
          have hdrop : ((b :: u).drop (decodeRune (b :: u)).2).length ≤ u.length := by
            rw [List.length_drop]; simp; omega
          simp only [step]
          simp only [List.length_cons] at h1 h2
          exact ih f2 _ _ (by omega) (by omega)

theorem step_width_pos (t : GoString) (r w : Nat) (h : step t = some (r, w)) : 1 ≤ w := by
  cases t with
  | nil => simp [step] at h
  | cons b u =>
    simp only [step, Option.some.injEq] at h
    have := decodeRune_width_pos b u
    rw [h] at this
    exact this

/-- The loop of `allMatches` never needs more rounds than there are positions
left, `pos` moving forward in every round. -/
theorem allMatches_fuel (re : Regex) (s : GoString) (n : Nat) (f1 : Nat) :
    ∀ (f2 pos i : Nat) (prev : Int), s.length + 1 - pos < f1 → s.length + 1 - pos < f2 →
      allMatches re s n f1 pos i prev = allMatches re s n f2 pos i prev := by
  induction f1 with
  | zero => intro f2 pos i prev h; omega
  | succ f1 ih =>
    intro f2 pos i prev h1 h2
    cases f2 with
    | zero => omega
    | succ f2 =>
      simp only [allMatches]
      by_cases hc : i < n ∧ pos ≤ s.length
      · rw [if_pos hc, if_pos hc]
        cases hd : doExecute re s pos with
        | none => rfl
        | some be =>
          obtain ⟨b, e⟩ := be
          obtain ⟨len, hb, he, _⟩ := doExecute_some re s pos b e hd
          simp only []
          have hpos : ∀ pos', pos < pos' →
              ∀ i' : Nat, allMatches re s n f1 pos' i' e = allMatches re s n f2 pos' i' e :=
            fun pos' hp i' => ih f2 pos' i' e (by omega) (by omega)
          have hnext : pos < (if e = pos then
              match step (s.drop pos) with
              | some (_, w) => pos + w
              | none => s.length + 1
            else e) := by
            split_ifs with hep
            · cases hs : step (s.drop pos) with
              | none => exact Nat.lt_succ_of_le hc.2
              | some rw =>
                obtain ⟨r, w⟩ := rw
                have := step_width_pos _ r w hs
                exact Nat.lt_add_of_pos_right this
            · omega
          rw [hpos _ hnext, hpos _ hnext]
      · rw [if_neg hc, if_neg hc]

/-- `FindAllStringSubmatch` gives the same matches with any larger bound on
the rounds of its loop. -/
theorem findAll_fuel (re : Regex) (s : GoString) (fuel : Nat) (h : s.length + 2 ≤ fuel) :
    (allMatches re s (s.length + 1) fuel 0 0 (-1)).map
        (fun be => (s.drop be.1).take (be.2 - be.1))
      = FindAllStringSubmatch re s := by
  unfold FindAllStringSubmatch
  rw [allMatches_fuel re s _ fuel (s.length + 2) 0 0 (-1) (by omega) (by omega)]

/-! ## CVE identifiers of a repository -/

theorem lit_enDash : lit "–" = [0xE2, 0x80, 0x93] := by decide

theorem lit_hyphen : lit "-" = [0x2D] := by decide

theorem isDigit_lt {b : Nat} (h : isDigit b = true) : b < 0x80 := by
  simp only [isDigit, Bool.and_eq_true, decide_eq_true_eq] at h; omega

theorem isCVEId_isRawCVE {id : GoString} (h : IsCVEId id) : IsRawCVE id := by
  obtain ⟨p, y, d, hp, hy, hyd, hd, hdd, rfl⟩ := h
  rcases hp with rfl | rfl
  · exact Or.inl ⟨[0x2D], y, [0x2D], d, Or.inl rfl, hy, hyd, Or.inl rfl, hd, hdd, rfl⟩
  · exact Or.inr ⟨[0x2D], y, [0x2D], d, Or.inl rfl, hy, hyd, Or.inl rfl, hd, hdd, rfl⟩

theorem isCVEId_bytes_lt {id : GoString} (h : IsCVEId id) : ∀ b ∈ id, b < 0x80 := by
  obtain ⟨p, y, d, hp, hy, hyd, hd, hdd, rfl⟩ := h
  intro b hb
  simp only [List.mem_append, List.mem_singleton] at hb
  rcases hb with (((hb | hb) | hb) | hb) | hb
  · rcases hp with rfl | rfl
    · rw [lit_CVE] at hb; simp at hb; omega
    · rw [lit_cve] at hb; simp at hb; omega
  · omega
  · exact isDigit_lt (hyd b hb)
  · omega
  · exact isDigit_lt (hdd b hb)

/-- The replacement of the en dash leaves a stretch without the byte E2 as
it is. -/
theorem replaceScan_enDash_append (l t : GoString) (h : ∀ b ∈ l, b ≠ 0xE2) :
    replaceScan [0xE2, 0x80, 0x93] [0x2D] 0 (l ++ t)
      = l ++ replaceScan [0xE2, 0x80, 0x93] [0x2D] 0 t := by
  induction l with
  | nil => rfl
  | cons c u ih =>
    have hc : c ≠ 0xE2 := h c (List.mem_cons_self _ _)
    have hp : HasPrefix (c :: (u ++ t)) [0xE2, 0x80, 0x93] = false := by
      simp [HasPrefix, List.isPrefixOf, Ne.symm hc]
    rw [List.cons_append, replaceScan, hp]
    simp only [Bool.false_eq_true, if_false, List.cons_append]
    rw [ih fun b hb => h b (List.mem_cons_of_mem _ hb)]

theorem replaceScan_enDash_sep (sep t : GoString) (h : IsSep sep) :
    replaceScan [0xE2, 0x80, 0x93] [0x2D] 0 (sep ++ t)
      = 0x2D :: replaceScan [0xE2, 0x80, 0x93] [0x2D] 0 t := by
  rcases h with rfl | rfl
  · exact replaceScan_enDash_append [0x2D] t (by simp)
  · simp [replaceScan, HasPrefix, List.isPrefixOf]

theorem allDigits_ne {y : GoString} (h : AllDigits y) : ∀ b ∈ y, b ≠ 0xE2 := by
  intro b hb e
  have := isDigit_lt (h b hb)
  omega

/-- The normal form of a text of `CVERegex`: `ReplaceAll(m[0], "–", "-")` is a
CVE identifier in normal form. -/
theorem replaceAll_raw (w : GoString) (h : IsRawCVE w) :
    IsCVEId (ReplaceAll w (lit "–") (lit "-")) := by
  rw [lit_enDash, lit_hyphen]
  have hold : ¬ ([0xE2, 0x80, 0x93] : GoString) = [] := by simp
  simp only [ReplaceAll, hold, if_false]
  have key : ∀ p : GoString, (∀ b ∈ p, b ≠ 0xE2) → IsRaw p w →
      ∃ y d, y.length = 4 ∧ AllDigits y ∧ 4 ≤ d.length ∧ AllDigits d ∧
        replaceScan [0xE2, 0x80, 0x93] [0x2D] 0 w = p ++ [0x2D] ++ y ++ [0x2D] ++ d := by
    rintro p hp ⟨sep1, y, sep2, d, hs1, hy, hyd, hs2, hd, hdd, rfl⟩
    refine ⟨y, d, hy, hyd, hd, hdd, ?_⟩
    have := replaceScan_enDash_append d [] (allDigits_ne hdd)
    rw [List.append_nil] at this
    simp only [List.append_assoc]
    rw [replaceScan_enDash_append p _ hp, replaceScan_enDash_sep _ _ hs1,
      ← List.singleton_append, replaceScan_enDash_append y _ (allDigits_ne hyd),
      replaceScan_enDash_sep _ _ hs2, this]
    simp [replaceScan]
  rcases h with h | h
  · obtain ⟨y, d, hy, hyd, hd, hdd, e⟩ := key (lit "CVE") (by rw [lit_CVE]; simp) h
    exact ⟨lit "CVE", y, d, Or.inl rfl, hy, hyd, hd, hdd, e⟩
  · obtain ⟨y, d, hy, hyd, hd, hdd, e⟩ := key (lit "cve") (by rw [lit_cve]; simp) h
    exact ⟨lit "cve", y, d, Or.inr rfl, hy, hyd, hd, hdd, e⟩

/-- An identifier in normal form is left as it is by the replacement. -/
theorem replaceAll_cveId (id : GoString) (h : IsCVEId id) :
    ReplaceAll id (lit "–") (lit "-") = id := by
  rw [lit_enDash, lit_hyphen]
  have hold : ¬ ([0xE2, 0x80, 0x93] : GoString) = [] := by simp
  simp only [ReplaceAll, hold, if_false]
  have := replaceScan_enDash_append id []
    (fun b hb e => by have := isCVEId_bytes_lt h b hb; omega)
  rw [List.append_nil] at this
  rw [this]; simp [replaceScan]

theorem contains_head_mem (s : GoString) (a : Nat) (rest : GoString)
    (h : Contains s (a :: rest) = true) : a ∈ s := by
  induction s with
  | nil => simp [Contains] at h
  | cons c t ih =>
    simp only [Contains, Bool.or_eq_true] at h
    rcases h with h | h
    · simp only [HasPrefix, List.isPrefixOf, Bool.and_eq_true, beq_iff_eq] at h
      rw [h.1]; exact List.mem_cons_self _ _
    · exact List.mem_cons_of_mem _ (ih h)

/-- An identifier in normal form contains no en dash. -/
theorem isCVEId_no_enDash {id : GoString} (h : IsCVEId id) :
    Contains id (lit "–") = false := by
  rw [lit_enDash]
  cases hc : Contains id [0xE2, 0x80, 0x93] with
  | false => rfl
  | true =>
    have := isCVEId_bytes_lt h _ (contains_head_mem id _ _ hc)
    omega

theorem isCVEId_ne_nil {id : GoString} (h : IsCVEId id) : id ≠ [] := by
  intro e
  have := isRawCVE_length_ge (isCVEId_isRawCVE h)
  rw [e] at this; simp at this

theorem collectIDs_eq (ms : List GoString) : collectIDs ms = ms.foldl addMatch [] := rfl

theorem set_mem (ids : IdMap) (k x : GoString) : x ∈ ids.set k ↔ x ∈ ids ∨ x = k := by
  unfold IdMap.set
  split_ifs with h
  · constructor
    · exact Or.inl
    · rintro (h1 | rfl)
      · exact h1
      · exact h
  · simp

theorem set_nodup (ids : IdMap) (k : GoString) (h : ids.Nodup) : (ids.set k).Nodup := by
  unfold IdMap.set
  split_ifs with hk
  · exact h
  · rw [List.nodup_append]
    refine ⟨h, List.nodup_singleton k, ?_⟩
    intro a ha hb
    rw [List.mem_singleton] at hb
    subst hb
    exact hk ha

theorem foldl_addMatch_mem (ms : List GoString) :
    ∀ (acc : IdMap) (x : GoString), x ∈ ms.foldl addMatch acc ↔
      x ∈ acc ∨ ∃ m ∈ ms, m ≠ [] ∧ x = ReplaceAll m (lit "–") (lit "-") := by
  induction ms with
  | nil => intro acc x; simp
  | cons m ms ih =>
    intro acc x
    rw [List.foldl_cons, ih]
    unfold addMatch
    by_cases hm : m ≠ []
    · rw [if_pos hm, set_mem]
      constructor
      · rintro ((h | h) | ⟨m', hm', h1, h2⟩)
        · exact Or.inl h
        · exact Or.inr ⟨m, List.mem_cons_self _ _, hm, h⟩
        · exact Or.inr ⟨m', List.mem_cons_of_mem _ hm', h1, h2⟩
      · rintro (h | ⟨m', hm', h1, h2⟩)
        · exact Or.inl (Or.inl h)
        · rcases List.mem_cons.1 hm' with rfl | hm'
          · exact Or.inl (Or.inr h2)
          · exact Or.inr ⟨m', hm', h1, h2⟩
    · rw [if_neg hm]
      constructor
      · rintro (h | ⟨m', hm', h1, h2⟩)
        · exact Or.inl h
        · exact Or.inr ⟨m', List.mem_cons_of_mem _ hm', h1, h2⟩
      · rintro (h | ⟨m', hm', h1, h2⟩)
        · exact Or.inl h
        · rcases List.mem_cons.1 hm' with rfl | hm'
          · exact absurd h1 hm
          · exact Or.inr ⟨m', hm', h1, h2⟩

theorem foldl_addMatch_nodup (ms : List GoString) :
    ∀ acc : IdMap, acc.Nodup → (ms.foldl addMatch acc).Nodup := by
  induction ms with
  | nil => intro acc h; exact h
  | cons m ms ih =>
    intro acc h
    rw [List.foldl_cons]
    apply ih
    unfold addMatch
    split_ifs
    · exact set_nodup _ _ h
    · exact h

/-- The keys of the `ids` map of a repository: the normal forms of the matches
in the url and in the description. -/
theorem repoIDs_mem (repo : Repository) (x : GoString) :
    x ∈ repoIDs repo ↔
      ∃ m, (m ∈ FindAllStringSubmatch CVERegex repo.Url ∨
            m ∈ FindAllStringSubmatch CVERegex repo.Description) ∧
        x = ReplaceAll m (lit "–") (lit "-") := by
  unfold repoIDs
  rw [collectIDs_eq, foldl_addMatch_mem]
  simp only [List.not_mem_nil, false_or, List.mem_append]
  constructor
  · rintro ⟨m, hm, _, hx⟩; exact ⟨m, hm, hx⟩
  · rintro ⟨m, hm, hx⟩
    refine ⟨m, hm, ?_, hx⟩
    intro e
    have : IsRawCVE m := by
      rcases hm with hm | hm
      · exact (findAll_mem _ _ hm).1
      · exact (findAll_mem _ _ hm).1
    have := isRawCVE_length_ge this
    rw [e] at this; simp at this

theorem repoIDs_nodup (repo : Repository) : (repoIDs repo).Nodup := by
  unfold repoIDs
  rw [collectIDs_eq]
  exact foldl_addMatch_nodup _ _ List.nodup_nil

theorem repoIDs_isCVEId (repo : Repository) (x : GoString) (h : x ∈ repoIDs repo) :
    IsCVEId x := by
  obtain ⟨m, hm, rfl⟩ := (repoIDs_mem repo x).1 h
  apply replaceAll_raw
  rcases hm with hm | hm
  · exact (findAll_mem _ _ hm).1
  · exact (findAll_mem _ _ hm).1

theorem repoIDs_eq_nil (repo : Repository) :
    repoIDs repo = [] ↔ ¬ MatchesSomewhere repo.Url ∧ ¬ MatchesSomewhere repo.Description := by
  rw [← findAll_CVERegex_eq_nil, ← findAll_CVERegex_eq_nil, List.eq_nil_iff_forall_not_mem]
  constructor
  · intro h
    constructor
    · rw [List.eq_nil_iff_forall_not_mem]
      intro m hm
      exact h _ ((repoIDs_mem repo _).2 ⟨m, Or.inl hm, rfl⟩)
    · rw [List.eq_nil_iff_forall_not_mem]
      intro m hm
      exact h _ ((repoIDs_mem repo _).2 ⟨m, Or.inr hm, rfl⟩)
  · rintro ⟨h1, h2⟩ x hx
    obtain ⟨m, hm, _⟩ := (repoIDs_mem repo x).1 hx
    rcases hm with hm | hm
    · rw [h1] at hm; simp at hm
    · rw [h2] at hm; simp at hm

theorem repoResult_some (order : RangeOrder) (i : Nat) (repo : Repository)
    (ids : List GoString) (h : (repoResult order i repo).CVEIDs = some ids) :
    ids = order i (repoIDs repo) ∧ repoIDs repo ≠ [] := by
  simp only [repoResult] at h
  split_ifs at h with hl
  simp only [Option.some.injEq] at h
  exact ⟨h.symm, fun e => by rw [e] at hl; simp at hl⟩

theorem repoResult_none (order : RangeOrder) (i : Nat) (repo : Repository) :
    (repoResult order i repo).CVEIDs = none ↔ repoIDs repo = [] := by
  simp only [repoResult]
  constructor
  · intro h
    split_ifs at h with hl
    exact List.length_eq_zero.1 (by omega)
  · intro h
    rw [h]; rfl

theorem buildResults_mem (order : RangeOrder) (repos : List Repository) :
    ∀ (i : Nat) (r : RepositoryResult), r ∈ buildResults order i repos →
      ∃ j repo, repo ∈ repos ∧ r = repoResult order j repo := by
  induction repos with
  | nil => intro i r h; simp [buildResults] at h
  | cons repo rest ih =>
    intro i r h
    simp only [buildResults, List.mem_cons] at h
    rcases h with rfl | h
    · exact ⟨i, repo, List.mem_cons_self _ _, rfl⟩
    · obtain ⟨j, repo', h1, h2⟩ := ih _ _ h
      exact ⟨j, repo', List.mem_cons_of_mem _ h1, h2⟩

/-- C1. CVE extraction: every identifier in the `CVEIDs` of a repository is
`CVE` or `cve`, an ASCII hyphen, 4 decimal digits, an ASCII hyphen and 4 or more
decimal digits, and contains no en dash; and for the description
`Fixes CVE-2021-1234 and cve–2021–5678` with a url in which no text of the
expression occurs, the identifiers are exactly `CVE-2021-1234` and
`cve-2021-5678` (in the order of the map iteration). -/
theorem cveIDs_normal_form (order : RangeOrder) (horder : order.Valid) (i : Nat)
    (url description : GoString) :
    (∀ ids, (repoResult order i ⟨url, description⟩).CVEIDs = some ids →
      ∀ id ∈ ids, IsCVEId id ∧ Contains id (lit "–") = false) ∧
    (¬ MatchesSomewhere url →
      ∃ ids, (repoResult order i ⟨url, lit "Fixes CVE-2021-1234 and cve–2021–5678"⟩).CVEIDs
          = some ids ∧
        ids.Perm [lit "CVE-2021-1234", lit "cve-2021-5678"]) := by
  constructor
  · intro ids h id hid
    obtain ⟨rfl, _⟩ := repoResult_some order i _ ids h
    have := repoIDs_isCVEId _ id ((horder i _).mem_iff.1 hid)
    exact ⟨this, isCVEId_no_enDash this⟩
  · intro hurl
    have hids : repoIDs ⟨url, lit "Fixes CVE-2021-1234 and cve–2021–5678"⟩
        = [lit "CVE-2021-1234", lit "cve-2021-5678"] := by
      unfold repoIDs
      simp only []
      rw [(findAll_CVERegex_eq_nil url).2 hurl, List.nil_append]
      decide
    refine ⟨order i [lit "CVE-2021-1234", lit "cve-2021-5678"], ?_, horder i _⟩
    simp only [repoResult, hids]
    rfl

/-- Witness of C1: a repository of `github.com`, the map iterated in insertion
order. -/
theorem cveIDs_normal_form_witness :
    (repoResult (fun _ keys => keys) 0
      ⟨lit "https://github.com/o/poc", lit "Fixes CVE-2021-1234 and cve–2021–5678"⟩).CVEIDs
      = some [lit "CVE-2021-1234", lit "cve-2021-5678"] ∧
    ∀ id ∈ [lit "CVE-2021-1234", lit "cve-2021-5678"],
      IsCVEId id ∧ Contains id (lit "–") = false :=
  ⟨by decide,
   (cveIDs_normal_form (fun _ keys => keys) (fun _ keys => List.Perm.refl keys) 0
      (lit "https://github.com/o/poc") (lit "Fixes CVE-2021-1234 and cve–2021–5678")).1
      [lit "CVE-2021-1234", lit "cve-2021-5678"] (by decide)⟩

/-- C2. For every repository list and every `RepositoryResult` that `main`
builds from it, the `CVEIDs` list, when present, holds no identifier twice and
no empty string; so a CVE that occurs in the url, twice in the description
with hyphens and once with en dashes is listed once. -/
theorem cveIDs_nodup (order : RangeOrder) (horder : order.Valid)
    (repos : List Repository) (r : RepositoryResult)
    (hr : r ∈ buildResults order 0 repos) (ids : List GoString)
    (h : r.CVEIDs = some ids) :
    ids.Nodup ∧ [] ∉ ids ∧
    (repoResult order 0 ⟨lit "https://github.com/o/CVE-2021-1234",
      lit "CVE-2021-1234 CVE–2021–1234 CVE-2021-1234"⟩).CVEIDs
      = some [lit "CVE-2021-1234"] := by
  obtain ⟨j, repo, _, rfl⟩ := buildResults_mem order repos 0 r hr
  obtain ⟨rfl, _⟩ := repoResult_some order j repo ids h
  refine ⟨(horder j _).nodup_iff.2 (repoIDs_nodup repo), ?_, ?_⟩
  · intro hmem
    exact isCVEId_ne_nil (repoIDs_isCVEId repo [] ((horder j _).mem_iff.1 hmem)) rfl
  · have hids : repoIDs ⟨lit "https://github.com/o/CVE-2021-1234",
        lit "CVE-2021-1234 CVE–2021–1234 CVE-2021-1234"⟩ = [lit "CVE-2021-1234"] := by
      decide
    simp only [repoResult, hids]
    have := List.perm_singleton.1 (horder 0 [lit "CVE-2021-1234"])
    rw [this]; rfl

/-- Witness of C2: two repositories, the second without any CVE. -/
theorem cveIDs_nodup_witness :
    [lit "CVE-2021-1234", lit "cve-2021-5678"].Nodup ∧
    [] ∉ [lit "CVE-2021-1234", lit "cve-2021-5678"] :=
  have h := cveIDs_nodup (fun _ keys => keys) (fun _ keys => List.Perm.refl keys)
    [⟨lit "https://github.com/o/CVE-2021-1234", lit "also cve–2021–5678, CVE–2021–1234"⟩,
     ⟨lit "https://github.com/o/poc", lit "no identifier"⟩]
    ⟨some [lit "CVE-2021-1234", lit "cve-2021-5678"],
      lit "https://github.com/o/CVE-2021-1234", lit "also cve–2021–5678, CVE–2021–1234"⟩
    (by decide) [lit "CVE-2021-1234", lit "cve-2021-5678"] rfl
  ⟨h.1, h.2.1⟩

/-- C3. The `CVEIDs` field of a `RepositoryResult` is nil (and so left out of
the JSON by `omitempty`) exactly when no text of the CVE expression occurs in
the url nor in the description; it is never a present but empty list. -/
theorem cveIDs_absent_iff (order : RangeOrder) (horder : order.Valid) (i : Nat)
    (repo : Repository) :
    ((repoResult order i repo).CVEIDs = none ↔
      ¬ MatchesSomewhere repo.Url ∧ ¬ MatchesSomewhere repo.Description) ∧
    (repoResult order i repo).CVEIDs ≠ some [] := by
  constructor
  · rw [repoResult_none, repoIDs_eq_nil]
  · intro h
    obtain ⟨he, hne⟩ := repoResult_some order i repo [] h
    have := (horder i (repoIDs repo)).length_eq
    rw [← he] at this
    exact hne (List.length_eq_zero.1 this.symm)

/-- Witness of C3: a repository without any CVE. -/
theorem cveIDs_absent_iff_witness :
    ¬ MatchesSomewhere (lit "https://github.com/o/poc") ∧
    ¬ MatchesSomewhere (lit "CVE-2021-123 is too short") :=
  ((cveIDs_absent_iff (fun _ keys => keys) (fun _ keys => List.Perm.refl keys) 0
    ⟨lit "https://github.com/o/poc", lit "CVE-2021-123 is too short"⟩).1).1 (by decide)

/-- C9. CVE extraction is idempotent: running the extraction again on an
identifier it produced (the identifier as the description, the url empty)
gives that identifier and nothing else. -/
theorem extraction_idempotent (order : RangeOrder) (horder : order.Valid) (i j : Nat)
    (url description : GoString) (ids : List GoString) (id : GoString)
    (h : (repoResult order i ⟨url, description⟩).CVEIDs = some ids) (hid : id ∈ ids) :
    (repoResult order j ⟨[], id⟩).CVEIDs = some [id] := by
  obtain ⟨rfl, _⟩ := repoResult_some order i _ ids h
  have hcve := repoIDs_isCVEId _ id ((horder i _).mem_iff.1 hid)
  have hnil : FindAllStringSubmatch CVERegex [] = [] := by decide
  have hids : repoIDs ⟨[], id⟩ = [id] := by
    unfold repoIDs
    simp only []
    rw [hnil, List.nil_append, findAll_CVERegex_raw id (isCVEId_isRawCVE hcve), collectIDs_eq]
    simp only [List.foldl_cons, List.foldl_nil, addMatch, isCVEId_ne_nil hcve, ne_eq, not_false_eq_true,
      if_true, replaceAll_cveId id hcve]
    rfl
  simp only [repoResult, hids]
  have := List.perm_singleton.1 (horder j [id])
  rw [this]; rfl

/-- Witness of C9: the identifier `cve-2021-5678`, extracted from a
description that writes it with en dashes. -/
theorem extraction_idempotent_witness :
    (repoResult (fun _ keys => keys) 0 ⟨[], lit "cve-2021-5678"⟩).CVEIDs
      = some [lit "cve-2021-5678"] :=
  extraction_idempotent (fun _ keys => keys) (fun _ keys => List.Perm.refl keys) 0 0
    (lit "https://github.com/o/poc") (lit "Fixes CVE-2021-1234 and cve–2021–5678")
    [lit "CVE-2021-1234", lit "cve-2021-5678"] (lit "cve-2021-5678") (by decide) (by decide)

/-! ## File name -/

theorem illegalFileNameChars_eq : illegalFileNameChars = illegalBytes.map fun b => [b] := by
  decide

theorem lit_trimset : lit "-*" = [45, 42] := by decide

theorem hasPrefix_single (b c : Nat) (t : GoString) : HasPrefix (c :: t) [b] = (b == c) := by
  simp [HasPrefix, List.isPrefixOf]

theorem contains_single (b : Nat) (s : GoString) : Contains s [b] = true ↔ b ∈ s := by
  induction s with
  | nil => simp [Contains]
  | cons c t ih =>
    simp only [Contains, hasPrefix_single, Bool.or_eq_true, ih, List.mem_cons, beq_iff_eq]

theorem replaceScan_single (b : Nat) (s : GoString) :
    replaceScan [b] [] 0 s = s.filter fun x => x != b := by
  induction s with
  | nil => simp [replaceScan]
  | cons c t ih =>
    simp only [replaceScan, hasPrefix_single, List.length_singleton, Nat.sub_self, ih,
      List.nil_append, List.filter_cons]
    by_cases h : b = c
    · subst h; simp
    · have h2 : ¬ c = b := fun e => h e.symm
      simp [h, h2]

theorem replaceAll_single (b : Nat) (s : GoString) :
    ReplaceAll s [b] [] = s.filter fun x => x != b := by
  simp [ReplaceAll, replaceScan_single]

/-- One round of the loop over `illegalFileNameChars` deletes the byte. -/
theorem strip_step (b : Nat) (name : GoString) :
    (if Contains name [b] then ReplaceAll name [b] [] else name)
      = name.filter fun x => x != b := by
  by_cases h : b ∈ name
  · rw [if_pos ((contains_single b name).2 h), replaceAll_single]
  · have hc : ¬ Contains name [b] = true := fun e => h ((contains_single b name).1 e)
    rw [if_neg hc]
    symm
    rw [List.filter_eq_self]
    intro a ha
    simp only [bne_iff_ne, ne_eq]
    rintro rfl
    exact h ha

theorem strip_foldl (bs : List Nat) (name : GoString) :
    (bs.map fun b => [b]).foldl
      (fun name char => if Contains name char then ReplaceAll name char [] else name) name
      = name.filter fun x => !bs.contains x := by
  induction bs generalizing name with
  | nil => simp
  | cons b bs ih =>
    simp only [List.map_cons, List.foldl_cons, strip_step, ih, List.filter_filter]
    congr 1
    funext x
    by_cases h : x = b <;> simp [h, Bool.and_comm]

/-- The file name is the trimmed query without its illegal bytes. -/
theorem fileName_eq (query : GoString) :
    fileName query = (Trim query (lit "-*")).filter fun x => !illegalBytes.contains x := by
  unfold fileName
  rw [illegalFileNameChars_eq, strip_foldl]

theorem fileName_mem (query : GoString) (x : Nat) :
    x ∈ fileName query ↔ x ∈ Trim query (lit "-*") ∧ x ∉ illegalBytes := by
  rw [fileName_eq]
  simp [List.mem_filter]

theorem head?_dropWhile_not (p : Nat → Bool) (l : List Nat) (x : Nat)
    (h : (l.dropWhile p).head? = some x) : p x = false := by
  induction l with
  | nil => simp at h
  | cons a t ih =>
    by_cases hp : p a = true
    · rw [List.dropWhile_cons_of_pos hp] at h; exact ih h
    · rw [List.dropWhile_cons_of_neg hp] at h
      simp only [List.head?_cons, Option.some.injEq] at h
      subst h; simpa using hp

theorem getLast?_dropWhile (p : Nat → Bool) (l : List Nat) (x : Nat)
    (h : (l.dropWhile p).getLast? = some x) : l.getLast? = some x := by
  induction l with
  | nil => simp at h
  | cons a t ih =>
    by_cases hp : p a = true
    · rw [List.dropWhile_cons_of_pos hp] at h
      have := ih h
      cases t with
      | nil => simp at this
      | cons b u => rw [List.getLast?_cons_cons]; exact this
    · rw [List.dropWhile_cons_of_neg hp] at h; exact h

theorem trim_ends (s cutset : GoString) (x : Nat) :
    ((Trim s cutset).head? = some x → cutset.contains x = false) ∧
    ((Trim s cutset).getLast? = some x → cutset.contains x = false) := by
  unfold Trim
  split
  · rename_i h
    rcases h with h | h
    · subst h; simp
    · subst h; simp
  · constructor
    · intro h
      exact head?_dropWhile_not (fun b => cutset.contains b) _ x h
    · intro h
      have h2 := getLast?_dropWhile _ _ x h
      rw [List.getLast?_reverse] at h2
      exact head?_dropWhile_not (fun b => cutset.contains b) _ x h2

theorem trim_trimmedEnds (query : GoString) : TrimmedEnds (Trim query (lit "-*")) := by
  rw [lit_trimset]
  refine ⟨?_, ?_, ?_, ?_⟩ <;> intro h
  · have := (trim_ends query [45, 42] _).1 h; simp at this
  · have := (trim_ends query [45, 42] _).1 h; simp at this
  · have := (trim_ends query [45, 42] _).2 h; simp at this
  · have := (trim_ends query [45, 42] _).2 h; simp at this

theorem head?_filter_of_head (p : Nat → Bool) (l : List Nat) (a : Nat)
    (h : l.head? = some a) (hp : p a = true) : (l.filter p).head? = some a := by
  cases l with
  | nil => simp at h
  | cons b t =>
    simp only [List.head?_cons, Option.some.injEq] at h
    subst h
    simp [List.filter_cons, hp]

theorem getLast?_filter_of_getLast (p : Nat → Bool) (l : List Nat) (a : Nat)
    (h : l.getLast? = some a) (hp : p a = true) : (l.filter p).getLast? = some a := by
  rw [← List.head?_reverse] at h ⊢
  rw [← List.filter_reverse]
  exact head?_filter_of_head p _ a h hp

/-- C4. File-name sanitization: for every query, the file name computed by
`main` (`strings.Trim` with cutset `-*`, then the removal of every entry of
`illegalFileNameChars`) contains none of the 21 illegal characters; and the
query `*CVE-2021-1234*` gives the file name `CVE-2021-1234`. -/
theorem fileName_has_no_illegal_char (query c : GoString)
    (hc : c ∈ illegalFileNameChars) :
    Contains (fileName query) c = false ∧
    illegalFileNameChars.length = 21 ∧
    fileName (lit "*CVE-2021-1234*") = lit "CVE-2021-1234" := by
  refine ⟨?_, by decide, by decide⟩
  rw [illegalFileNameChars_eq, List.mem_map] at hc
  obtain ⟨b, hb, rfl⟩ := hc
  cases h : Contains (fileName query) [b] with
  | false => rfl
  | true =>
    exact absurd hb ((fileName_mem query b).1 ((contains_single b _).1 h)).2

/-- Witness of C4: the query `a<b>c` and the illegal character `<`. -/
theorem fileName_has_no_illegal_char_witness :
    lit "<" ∈ illegalFileNameChars ∧
    Contains (fileName (lit "a<b>c")) (lit "<") = false :=
  ⟨by decide, (fileName_has_no_illegal_char (lit "a<b>c") (lit "<") (by decide)).1⟩

/-- C5 fails as stated: the query `!-a` is left alone by the trimming (it
begins with `!`), and the removal of `!` then leaves the file name `-a`, which
begins with `-`. -/
theorem fileName_may_begin_with_hyphen :
    fileName (lit "!-a") = lit "-a" ∧ ¬ TrimmedEnds (fileName (lit "!-a")) := by
  decide

/-- C5, amended. For every query, `-` and `*` are trimmed from the query
before the illegal characters are removed: the trimmed query neither begins
nor ends with `-` or `*`, the file name is the trimmed query without its
illegal characters, it never begins or ends with `*`, and it neither begins
nor ends with `-` or `*` whenever the first and the last byte of the trimmed
query are not illegal characters. -/
theorem fileName_trimmed_before_removal (query : GoString) :
    TrimmedEnds (Trim query (lit "-*")) ∧
    fileName query = (Trim query (lit "-*")).filter (fun x => !illegalBytes.contains x) ∧
    (fileName query).head? ≠ some 0x2A ∧ (fileName query).getLast? ≠ some 0x2A ∧
    ((∀ a, (Trim query (lit "-*")).head? = some a → a ∉ illegalBytes) →
     (∀ a, (Trim query (lit "-*")).getLast? = some a → a ∉ illegalBytes) →
     TrimmedEnds (fileName query)) := by
  have hstar : (0x2A : Nat) ∉ fileName query := by
    intro h
    exact ((fileName_mem query _).1 h).2 (by decide)
  refine ⟨trim_trimmedEnds query, fileName_eq query, ?_, ?_, ?_⟩
  · intro h
    exact hstar (List.mem_of_mem_head? h)
  · intro h
    exact hstar (List.mem_of_mem_getLast? h)
  · intro h1 h2
    have ht := trim_trimmedEnds query
    rw [fileName_eq]
    generalize Trim query (lit "-*") = t at h1 h2 ht
    have key1 : (t.filter fun x => !illegalBytes.contains x).head? = t.head? := by
      cases hh : t.head? with
      | none =>
        have : t = [] := by simpa using hh
        subst this; rfl
      | some a =>
        exact head?_filter_of_head _ t a hh (by simpa using h1 a hh)
    have key2 : (t.filter fun x => !illegalBytes.contains x).getLast? = t.getLast? := by
      cases hh : t.getLast? with
      | none =>
        have : t = [] := by simpa using hh
        subst this; rfl
      | some a =>
        exact getLast?_filter_of_getLast _ t a hh (by simpa using h2 a hh)
    unfold TrimmedEnds at ht ⊢
    rw [key1, key2]
    exact ht

/-- Witness of C5 (amended): the query `-*CVE-2021-*`, trimmed to `CVE-2021`. -/
theorem fileName_trimmed_before_removal_witness :
    TrimmedEnds (fileName (lit "-*CVE-2021-*")) :=
  (fileName_trimmed_before_removal (lit "-*CVE-2021-*")).2.2.2.2
    (by decide) (by decide)

/-! ## Pagination -/

theorem loopBody_exited (c : Client) (query : GoString) (maxRepos : Int) (l : Loop)
    (h : l.exited = true) : loopBody c query maxRepos l = l := by
  simp [loopBody, h]

theorem paginate_exited (c : Client) (query : GoString) (maxRepos : Int) (n : Nat) (l : Loop)
    (h : l.exited = true) : paginate c query maxRepos n l = l := by
  induction n with
  | zero => rfl
  | succ n ih => rw [paginate, loopBody_exited c query maxRepos l h, ih]

theorem paginate_add (c : Client) (query : GoString) (maxRepos : Int) (m n : Nat) (l : Loop) :
    paginate c query maxRepos (m + n) l
      = paginate c query maxRepos n (paginate c query maxRepos m l) := by
  induction m generalizing l with
  | zero => simp [paginate]
  | succ m ih => rw [Nat.succ_add, paginate, paginate, ih]

theorem paginate_succ (c : Client) (query : GoString) (maxRepos : Int) (n : Nat) (l : Loop) :
    paginate c query maxRepos (n + 1) l
      = loopBody c query maxRepos (paginate c query maxRepos n l) := by
  rw [paginate_add]; rfl

/-- What one pass through the loop does to a loop that has not been left. -/
theorem loopBody_cases (c : Client) (query : GoString) (maxRepos : Int) (l : Loop)
    (hex : l.exited = false) :
    let l' := loopBody c query maxRepos l
    let page := (c.Query l.st.calls ⟨query, some l.after⟩ l.st.CVEPaginationQuery).1
    (¬ l.reposCnt < maxRepos ∧ l'.exited = true ∧ l'.st = l.st) ∨
    (l.reposCnt < maxRepos ∧ page.Edges = [] ∧ l'.exited = true ∧
      l'.st.repos = l.st.repos ∧ l'.st.calls = l.st.calls + 1) ∨
    (l.reposCnt < maxRepos ∧ page.Edges ≠ [] ∧ l'.exited = false ∧
      l'.st.repos = l.st.repos ++ page.Edges ∧ l'.st.calls = l.st.calls + 1 ∧
      l'.reposCnt = (l.st.repos ++ page.Edges).length ∧ l'.after = page.EndCursor) := by
  intro l' page
  by_cases hlt : l.reposCnt < maxRepos
  · by_cases he : page.Edges = []
    · right; left
      have he' : (c.Query l.st.calls ⟨query, some l.after⟩ l.st.CVEPaginationQuery).1.Edges = [] := he
      simp [l', loopBody, hex, hlt, he', he]
    · right; right
      have he' : ¬ (c.Query l.st.calls ⟨query, some l.after⟩ l.st.CVEPaginationQuery).1.Edges = [] := he
      simp [l', loopBody, hex, hlt, he', he, page]
  · left
    simp [l', loopBody, hex, hlt]

/-- Termination of the loop: from a head where `reposCnt` is at most the
length of `repos`, more passes than `maxRepos - reposCnt` leave the loop, after
at most `maxRepos - reposCnt` queries. -/
theorem paginate_terminates (c : Client) (query : GoString) (maxRepos : Int) (n : Nat) :
    ∀ l : Loop, l.reposCnt ≤ l.st.repos.length → (maxRepos - l.reposCnt).toNat < n →
      (paginate c query maxRepos n l).exited = true ∧
      (paginate c query maxRepos n l).st.calls ≤ l.st.calls + (maxRepos - l.reposCnt).toNat := by
  induction n with
  | zero => intro l _ h; omega
  | succ n ih =>
    intro l hinv hfuel
    rw [paginate]
    cases hex : l.exited with
    | true =>
      rw [loopBody_exited c query maxRepos l hex, paginate_exited c query maxRepos n l hex]
      exact ⟨hex, Nat.le_add_right _ _⟩
    | false =>
      rcases loopBody_cases c query maxRepos l hex with h | h | h
      · obtain ⟨_, he, hst⟩ := h
        rw [paginate_exited c query maxRepos n _ he]
        exact ⟨he, by rw [hst]; exact Nat.le_add_right _ _⟩
      · obtain ⟨hlt, _, he, _, hc⟩ := h
        rw [paginate_exited c query maxRepos n _ he]
        refine ⟨he, ?_⟩
        rw [hc]; omega
      · obtain ⟨hlt, hne, _, hrepos, hc, hcnt, _⟩ := h
        have hlen : 0 < (c.Query l.st.calls ⟨query, some l.after⟩
            l.st.CVEPaginationQuery).1.Edges.length := List.length_pos.2 hne
        have hinv' : (loopBody c query maxRepos l).reposCnt
            ≤ (loopBody c query maxRepos l).st.repos.length := by
          rw [hcnt, hrepos]
        have hgrow : l.reposCnt < (loopBody c query maxRepos l).reposCnt := by
          rw [hcnt, List.length_append]; push_cast; omega
        have := ih (loopBody c query maxRepos l) hinv' (by omega)
        refine ⟨this.1, ?_⟩
        have h2 := this.2
        rw [hc] at h2
        omega

theorem loopBody_reposCnt_le (c : Client) (query : GoString) (maxRepos : Int) (l : Loop)
    (h : l.reposCnt ≤ l.st.repos.length) :
    (loopBody c query maxRepos l).reposCnt ≤ (loopBody c query maxRepos l).st.repos.length := by
  simp only [loopBody]
  split_ifs <;> simp [h]

theorem getReposUpTo_reposCnt_le (c : Client) (query : GoString) (n : Nat) :
    (getReposUpTo c query State.init n).reposCnt
      ≤ (getReposUpTo c query State.init n).st.repos.length := by
  induction n with
  | zero => simp [getReposUpTo, paginate, firstPage, State.init]
  | succ n ih =>
    unfold getReposUpTo at ih ⊢
    simp only [] at ih ⊢
    rw [paginate_succ]
    exact loopBody_reposCnt_le _ _ _ _ ih

/-- C10. The pagination loop of `getRepos` terminates whatever the client
answers (reported total, page sizes, failed calls): `getRepos` returns, having
issued at most `total` pagination queries after the first query (none when
the reported total is 0 or less); more passes than `total` do not change the
result; and every pass through the loop body either leaves the loop on a
page with zero edges or appends at least one repository and strictly
increases `reposCnt`. -/
theorem getRepos_terminates (c : Client) (query : GoString) :
    (∃ st, getRepos c query State.init = some st ∧
      1 ≤ st.calls ∧ st.calls - 1 ≤ (reportedTotal c query).toNat ∧
      (reportedTotal c query ≤ 0 → st.calls = 1) ∧
      ∀ n, (reportedTotal c query).toNat < n →
        (getReposUpTo c query State.init n).exited = true ∧
        (getReposUpTo c query State.init n).st = st) ∧
    (∀ n, (getReposUpTo c query State.init n).exited = false →
      (getReposUpTo c query State.init n).reposCnt < reportedTotal c query →
      ((getReposUpTo c query State.init (n + 1)).exited = true ∧
        (getReposUpTo c query State.init (n + 1)).st.CVEPaginationQuery.Edges = [] ∧
        (getReposUpTo c query State.init (n + 1)).st.repos
          = (getReposUpTo c query State.init n).st.repos) ∨
      ((getReposUpTo c query State.init (n + 1)).exited = false ∧
        (getReposUpTo c query State.init n).st.repos.length
          < (getReposUpTo c query State.init (n + 1)).st.repos.length ∧
        (getReposUpTo c query State.init n).reposCnt
          < (getReposUpTo c query State.init (n + 1)).reposCnt)) := by
  have h0 : (firstPage c query State.init).2.reposCnt
      ≤ (firstPage c query State.init).2.st.repos.length := by
    simp [firstPage, State.init]
  have hcnt0 : (firstPage c query State.init).2.reposCnt = 0 := by
    simp [firstPage, State.init]
  have hcalls0 : (firstPage c query State.init).2.st.calls = 1 := by
    simp [firstPage, State.init]
  have hterm : ∀ n, (reportedTotal c query).toNat < n →
      (getReposUpTo c query State.init n).exited = true ∧
      (getReposUpTo c query State.init n).st.calls ≤ 1 + (reportedTotal c query).toNat := by
    intro n hn
    have := paginate_terminates c query (firstPage c query State.init).1 n
      (firstPage c query State.init).2 h0
      (by rw [hcnt0]; simpa [reportedTotal] using hn)
    rw [hcnt0, hcalls0] at this
    simpa [getReposUpTo, reportedTotal] using this
  have hmono : ∀ n, 1 ≤ (getReposUpTo c query State.init n).st.calls := by
    intro n
    induction n with
    | zero => simp [getReposUpTo, paginate, hcalls0]
    | succ n ih =>
      unfold getReposUpTo at ih ⊢
      simp only [] at ih ⊢
      rw [paginate_succ]
      generalize paginate c query (firstPage c query State.init).1 n
        (firstPage c query State.init).2 = l at ih ⊢
      cases hex : l.exited with
      | true => rw [loopBody_exited _ _ _ _ hex]; exact ih
      | false =>
        rcases loopBody_cases c query (firstPage c query State.init).1 l hex with h | h | h
        · rw [h.2.2]; exact ih
        · rw [h.2.2.2.2]; omega
        · rw [h.2.2.2.2.1]; omega
  constructor
  · have hfin := hterm ((reportedTotal c query).toNat + 1) (Nat.lt_succ_self _)
    refine ⟨(getReposUpTo c query State.init ((reportedTotal c query).toNat + 1)).st,
      ?_, hmono _, ?_, ?_, ?_⟩
    · have : (paginate c query (firstPage c query State.init).1
          ((firstPage c query State.init).1.toNat + 1)
          (firstPage c query State.init).2).exited = true := hfin.1
      simp only [getRepos, this, if_true]
      rfl
    · have := hfin.2; omega
    · intro hle
      have h1 := hfin.2
      have h2 := hmono ((reportedTotal c query).toNat + 1)
      have : (reportedTotal c query).toNat = 0 := by omega
      omega
    · intro n hn
      refine ⟨(hterm n hn).1, ?_⟩
      obtain ⟨k, rfl⟩ : ∃ k, n = (reportedTotal c query).toNat + 1 + k :=
        ⟨n - ((reportedTotal c query).toNat + 1), by omega⟩
      unfold getReposUpTo
      simp only []
      rw [paginate_add]
      have hfin1 : (paginate c query (firstPage c query State.init).1
          ((reportedTotal c query).toNat + 1) (firstPage c query State.init).2).exited
          = true := hfin.1
      rw [paginate_exited _ _ _ k _ hfin1]
  · intro n hex hlt
    have hinv := getReposUpTo_reposCnt_le c query n
    unfold getReposUpTo at hex hlt hinv ⊢
    simp only [] at hex hlt hinv ⊢
    rw [paginate_succ]
    generalize paginate c query (firstPage c query State.init).1 n
      (firstPage c query State.init).2 = l at hex hlt hinv ⊢
    rcases loopBody_cases c query (firstPage c query State.init).1 l hex with h | h | h
    · exact absurd hlt h.1
    · left
      refine ⟨h.2.2.1, ?_, h.2.2.2.1⟩
      have he := h.2.1
      have hex' := hex
      have hlt' : l.reposCnt < (firstPage c query State.init).1 := hlt
      simp [loopBody, hex', hlt', he]
    · right
      obtain ⟨_, hne, he, hrepos, _, hcnt, _⟩ := h
      have hlen : 0 < (c.Query l.st.calls ⟨query, some l.after⟩
          l.st.CVEPaginationQuery).1.Edges.length := List.length_pos.2 hne
      refine ⟨he, ?_, ?_⟩
      · rw [hrepos, List.length_append]; omega
      · rw [hcnt, List.length_append]; push_cast; omega

theorem pagedClient_serves (all : List Repository) (total : Int) (query : GoString) :
    Serves (pagedClient all total) query (all.take 1000) total List.length where
  first_count := fun _ _ => rfl
  first_edges := fun _ _ => rfl
  first_cursor := fun _ _ => by simp [pagedClient, cursorAt]
  next_edges := fun _ _ _ => rfl
  next_cursor := fun _ _ _ => by simp [pagedClient, cursorAt]

theorem serves_upTo {c : Client} {query : GoString} {served : List Repository}
    {total : Int} {off : GoString → Nat} (h : Serves c query served total off) :
    ServesUpTo c query served total off where
  total_reported := h.first_count
  first_page := fun n old => by rw [h.first_edges]; exact List.take_prefix _ _
  first_len := fun n old => by rw [h.first_edges]; simp
  first_end := fun n old => by rw [h.first_cursor, h.first_edges]
  next_page := fun n cur old => by rw [h.next_edges]; exact List.take_prefix _ _
  next_len := fun n cur old => by rw [h.next_edges]; simp
  next_end := fun n cur old => by rw [h.next_cursor, h.next_edges]

/-- Under `ServesUpTo`, `repos` is always a prefix of `served` and the cursor
stands for its length. -/
theorem loopBody_served {c : Client} {query : GoString} {served : List Repository}
    {total : Int} {off : GoString → Nat} (h : ServesUpTo c query served total off)
    (maxRepos : Int) (l : Loop)
    (hinv : l.st.repos <+: served ∧ off l.after = l.st.repos.length) :
    (loopBody c query maxRepos l).st.repos <+: served ∧
    off (loopBody c query maxRepos l).after = (loopBody c query maxRepos l).st.repos.length := by
  cases hex : l.exited with
  | true => rw [loopBody_exited _ _ _ _ hex]; exact hinv
  | false =>
    have hafter : ∀ l' : Loop, l'.st.repos = l.st.repos → l'.after = l.after →
        l'.st.repos <+: served ∧ off l'.after = l'.st.repos.length := by
      intro l' h1 h2; rw [h1, h2]; exact hinv
    unfold loopBody
    simp only [hex, Bool.false_eq_true, if_false]
    split_ifs with hlt he
    · exact hafter _ rfl rfl
    · have hp := h.next_page l.st.calls l.after l.st.CVEPaginationQuery
      have hc := h.next_end l.st.calls l.after l.st.CVEPaginationQuery
      obtain ⟨rest, hrest⟩ := hinv.1
      constructor
      · simp only []
        rw [hinv.2] at hp
        have : served.drop l.st.repos.length = rest := by
          rw [← hrest]; simp
        rw [this] at hp
        rw [← hrest]
        exact (List.prefix_append_right_inj _).2 hp
      · simp only [List.length_append]
        rw [hc, hinv.2]
    · exact hafter _ rfl rfl

theorem getReposUpTo_served {c : Client} {query : GoString} {served : List Repository}
    {total : Int} {off : GoString → Nat} (h : ServesUpTo c query served total off) (n : Nat) :
    (getReposUpTo c query State.init n).st.repos <+: served ∧
    off (getReposUpTo c query State.init n).after
      = (getReposUpTo c query State.init n).st.repos.length := by
  induction n with
  | zero =>
    simp only [getReposUpTo, paginate, firstPage, State.init, List.nil_append]
    exact ⟨h.first_page _ _, h.first_end _ _⟩
  | succ n ih =>
    unfold getReposUpTo at ih ⊢
    simp only [] at ih ⊢
    rw [paginate_succ]
    exact loopBody_served h _ _ ih

/-- The state in which `getRepos` returns is the state of the loop after any
number of passes greater than the reported total. -/
theorem getRepos_eq (c : Client) (query : GoString) :
    getRepos c query State.init
      = some (getReposUpTo c query State.init ((reportedTotal c query).toNat + 1)).st := by
  have h0 : (firstPage c query State.init).2.reposCnt
      ≤ (firstPage c query State.init).2.st.repos.length := by
    simp [firstPage, State.init]
  have := (paginate_terminates c query (firstPage c query State.init).1
    ((firstPage c query State.init).1.toNat + 1) (firstPage c query State.init).2 h0
    (by simp [firstPage, State.init])).1
  simp only [getRepos, this, if_true]
  rfl

/-- C8. Against a service that serves the first `min(total, 1000)` matching
repositories in consecutive pages of at most 100 and empty pages after them,
the accumulated `repos` list never holds more than `total` nor more than 1000
repositories: after the first page, after every pass through the pagination
loop, and when `getRepos` returns. -/
theorem getRepos_count_bounded (c : Client) (query : GoString) (all : List Repository)
    (off : GoString → Nat)
    (h : ServesUpTo c query (all.take 1000) all.length off) :
    (∀ n, (getReposUpTo c query State.init n).st.repos.length ≤ all.length ∧
          (getReposUpTo c query State.init n).st.repos.length ≤ 1000) ∧
    ∃ st, getRepos c query State.init = some st ∧
      st.repos.length ≤ all.length ∧ st.repos.length ≤ 1000 := by
  have key : ∀ n, (getReposUpTo c query State.init n).st.repos.length ≤ all.length ∧
      (getReposUpTo c query State.init n).st.repos.length ≤ 1000 := by
    intro n
    have := (getReposUpTo_served h n).1.length_le
    rw [List.length_take] at this
    omega
  exact ⟨key, _, getRepos_eq c query, key _⟩

/-- Witness of C8: a service holding 1234 repositories. -/
theorem getRepos_count_bounded_witness :
    ServesUpTo (pagedClient (sampleRepos 1234) 1234) (lit "CVE-2021")
      ((sampleRepos 1234).take 1000) (sampleRepos 1234).length List.length ∧
    ∃ st, getRepos (pagedClient (sampleRepos 1234) 1234) (lit "CVE-2021") State.init = some st ∧
      st.repos.length ≤ (sampleRepos 1234).length ∧ st.repos.length ≤ 1000 := by
  have hl : ((sampleRepos 1234).length : Int) = 1234 := by simp [sampleRepos]
  have h : ServesUpTo (pagedClient (sampleRepos 1234) 1234) (lit "CVE-2021")
      ((sampleRepos 1234).take 1000) (sampleRepos 1234).length List.length := by
    rw [hl]
    exact serves_upTo (pagedClient_serves (sampleRepos 1234) 1234 (lit "CVE-2021"))
  exact ⟨h, (getRepos_count_bounded (pagedClient (sampleRepos 1234) 1234) (lit "CVE-2021")
    (sampleRepos 1234) List.length h).2⟩

/-- Under `Serves`, a pass from a head where `repos` holds the first `m`
served repositories and `m` is below `maxRepos` fetches the next page. -/
theorem loopBody_serves {c : Client} {query : GoString} {served : List Repository}
    {total : Int} {off : GoString → Nat} (h : Serves c query served total off)
    (maxRepos : Int) (l : Loop) (m : Nat) (hex : l.exited = false)
    (hrepos : l.st.repos = served.take m) (hoff : off l.after = m)
    (hm : m < served.length) (hlt : l.reposCnt < maxRepos) :
    (loopBody c query maxRepos l).exited = false ∧
    (loopBody c query maxRepos l).st.repos = served.take (min (m + 100) served.length) ∧
    off (loopBody c query maxRepos l).after = min (m + 100) served.length ∧
    (loopBody c query maxRepos l).reposCnt = (min (m + 100) served.length : Nat) ∧
    (loopBody c query maxRepos l).st.calls = l.st.calls + 1 := by
  have hp := h.next_edges l.st.calls l.after l.st.CVEPaginationQuery
  have hc := h.next_cursor l.st.calls l.after l.st.CVEPaginationQuery
  rw [hoff] at hp hc
  have hlen : ((served.drop m).take 100).length = min (m + 100) served.length - m := by
    rw [List.length_take, List.length_drop]; omega
  have hne : (c.Query l.st.calls ⟨query, some l.after⟩ l.st.CVEPaginationQuery).1.Edges ≠ [] := by
    rw [hp]; intro e
    have := congrArg List.length e
    rw [hlen] at this; simp at this; omega
  have htake : served.take m ++ (served.drop m).take 100
      = served.take (min (m + 100) served.length) := by
    rw [← List.take_add]
    rcases Nat.le_total (m + 100) served.length with h1 | h1
    · rw [Nat.min_eq_left h1]
    · rw [Nat.min_eq_right h1, List.take_of_length_le h1, List.take_of_length_le (le_refl _)]
  rcases loopBody_cases c query maxRepos l hex with h1 | h1 | h1
  · exact absurd hlt h1.1
  · exact absurd h1.2.1 hne
  · obtain ⟨_, _, he, hr, hcalls, hcnt, hafter⟩ := h1
    rw [hp, hrepos, htake] at hr
    rw [hp, hrepos, htake] at hcnt
    refine ⟨he, hr, ?_, ?_, hcalls⟩
    · rw [hafter, hc, hlen]; omega
    · rw [hcnt, List.length_take]; congr 1; omega

/-- Under `Serves`, from a head where `reposCnt` is up to date, the loop
fetches the remaining pages, one query each, and stops. -/
theorem paginate_serves {c : Client} {query : GoString} {served : List Repository}
    {total : Int} {off : GoString → Nat} (h : Serves c query served total off) (n : Nat) :
    ∀ (l : Loop) (m : Nat), l.exited = false → l.st.repos = served.take m →
      off l.after = m → l.reposCnt = (m : Int) → m ≤ served.length →
      served.length - m < n →
      (paginate c query served.length n l).exited = true ∧
      (paginate c query served.length n l).st.repos = served ∧
      (paginate c query served.length n l).st.calls
        = l.st.calls + (served.length - m + 99) / 100 := by
  induction n with
  | zero => intro l m _ _ _ _ _ hn; omega
  | succ n ih =>
    intro l m hex hrepos hoff hcnt hm hn
    rw [paginate]
    rcases Nat.eq_or_lt_of_le hm with heq | hlt
    · -- everything has been fetched: the loop is left at its head
      rcases loopBody_cases c query served.length l hex with h1 | h1 | h1
      · rw [paginate_exited _ _ _ _ _ h1.2.1]
        refine ⟨h1.2.1, ?_, ?_⟩
        · rw [h1.2.2, hrepos, heq, List.take_of_length_le (le_refl _)]
        · rw [h1.2.2, heq]; simp
      · have := h1.1; rw [hcnt] at this; omega
      · have := h1.1; rw [hcnt] at this; omega
    · have hlt' : l.reposCnt < (served.length : Int) := by rw [hcnt]; omega
      obtain ⟨he, hr, ho, hc, hcalls⟩ :=
        loopBody_serves h served.length l m hex hrepos hoff hlt hlt'
      have := ih (loopBody c query served.length l) (min (m + 100) served.length)
        he hr ho hc (Nat.min_le_right _ _) (by omega)
      refine ⟨this.1, this.2.1, ?_⟩
      rw [this.2.2, hcalls]
      omega

/-- C7. Against a service that reports `total` with `100 < total <= 1000` and
serves those repositories in consecutive pages of 100 (the last page holding
the remainder), `getRepos` issues exactly `ceil(total / 100)` queries (the
first query and the pagination queries) and returns with `repos` holding the
`total` repositories. -/
theorem getRepos_pages (c : Client) (query : GoString) (all : List Repository)
    (off : GoString → Nat) (h : Serves c query all all.length off)
    (hlo : 100 < all.length) (hhi : all.length ≤ 1000) :
    ∃ st, getRepos c query State.init = some st ∧
      st.calls = (all.length + 99) / 100 ∧ st.repos.length = all.length ∧ st.repos = all := by
  refine ⟨_, getRepos_eq c query, ?_⟩
  have htotal : reportedTotal c query = all.length := by
    simp [reportedTotal, firstPage, State.init, h.first_count]
  rw [htotal, Int.toNat_ofNat]
  unfold getReposUpTo
  simp only []
  have hmax : (firstPage c query State.init).1 = all.length := htotal
  rw [hmax, paginate]
  -- the loop at its first head: the first page is in `repos`, `reposCnt` is 0
  have hex0 : (firstPage c query State.init).2.exited = false := rfl
  have hrepos0 : (firstPage c query State.init).2.st.repos = all.take 100 := by
    simp [firstPage, State.init, h.first_edges]
  have hoff0 : off (firstPage c query State.init).2.after = 100 := by
    simp only [firstPage, State.init]
    rw [h.first_cursor, List.length_take]; omega
  have hcnt0 : (firstPage c query State.init).2.reposCnt = 0 := by
    simp [firstPage, State.init]
  have hcalls0 : (firstPage c query State.init).2.st.calls = 1 := by
    simp [firstPage, State.init]
  obtain ⟨he, hr, ho, hc, hcalls⟩ :=
    loopBody_serves h all.length (firstPage c query State.init).2 100 hex0 hrepos0 hoff0
      (by omega) (by rw [hcnt0]; omega)
  have := paginate_serves h all.length (loopBody c query all.length (firstPage c query State.init).2)
    (min (100 + 100) all.length) he hr ho hc (Nat.min_le_right _ _) (by omega)
  refine ⟨?_, ?_, this.2.1⟩
  · rw [this.2.2, hcalls, hcalls0]; omega
  · rw [this.2.1]

/-- Witness of C7: a service holding 250 repositories, fetched in 3 queries. -/
theorem getRepos_pages_witness :
    Serves (pagedClient (sampleRepos 250) 250) (lit "CVE-2021") (sampleRepos 250)
      (sampleRepos 250).length List.length ∧
    ∃ st, getRepos (pagedClient (sampleRepos 250) 250) (lit "CVE-2021") State.init = some st ∧
      st.calls = 3 ∧ st.repos.length = 250 := by
  have hl : (sampleRepos 250).length = 250 := by simp [sampleRepos]
  have h : Serves (pagedClient (sampleRepos 250) 250) (lit "CVE-2021") (sampleRepos 250)
      (sampleRepos 250).length List.length := by
    have := pagedClient_serves (sampleRepos 250) 250 (lit "CVE-2021")
    rw [List.take_of_length_le (by rw [hl]; omega)] at this
    rw [hl]; exact this
  refine ⟨h, ?_⟩
  obtain ⟨st, h1, h2, h3, _⟩ := getRepos_pages (pagedClient (sampleRepos 250) 250)
    (lit "CVE-2021") (sampleRepos 250) List.length h (by rw [hl]; omega) (by rw [hl]; omega)
  exact ⟨st, h1, by rw [h2, hl], by rw [h3, hl]⟩

/-- What `getRepos` does against a service that reports a total of at most
100 and serves it in the first page: `repos` ends up holding the `total`
repositories, after one query when the total is 0 and after two queries
otherwise: `reposCnt` is read before the first page is appended (line 104),
so the loop is entered with `reposCnt = 0` and asks for a second page. -/
theorem getRepos_small_total (c : Client) (query : GoString) (all : List Repository)
    (off : GoString → Nat) (h : Serves c query all all.length off)
    (hhi : all.length ≤ 100) :
    ∃ st, getRepos c query State.init = some st ∧ st.repos = all ∧
      st.calls = if all.length = 0 then 1 else 2 := by
  refine ⟨_, getRepos_eq c query, ?_⟩
  have htotal : reportedTotal c query = all.length := by
    simp [reportedTotal, firstPage, State.init, h.first_count]
  rw [htotal, Int.toNat_ofNat]
  unfold getReposUpTo
  simp only []
  have hmax : (firstPage c query State.init).1 = all.length := htotal
  rw [hmax, paginate]
  have hex0 : (firstPage c query State.init).2.exited = false := rfl
  have hrepos0 : (firstPage c query State.init).2.st.repos = all := by
    simp [firstPage, State.init, h.first_edges, List.take_of_length_le hhi]
  have hoff0 : off (firstPage c query State.init).2.after = all.length := by
    simp only [firstPage, State.init]
    rw [h.first_cursor, List.length_take]; omega
  have hcnt0 : (firstPage c query State.init).2.reposCnt = 0 := by
    simp [firstPage, State.init]
  have hcalls0 : (firstPage c query State.init).2.st.calls = 1 := by
    simp [firstPage, State.init]
  have hpage : (c.Query (firstPage c query State.init).2.st.calls
      ⟨query, some (firstPage c query State.init).2.after⟩
      (firstPage c query State.init).2.st.CVEPaginationQuery).1.Edges = [] := by
    rw [h.next_edges, hoff0]; simp
  rcases loopBody_cases c query all.length (firstPage c query State.init).2 hex0
    with h1 | h1 | h1
  · rw [paginate_exited _ _ _ _ _ h1.2.1, h1.2.2]
    have : all.length = 0 := by have := h1.1; rw [hcnt0] at this; omega
    exact ⟨hrepos0, by rw [hcalls0, if_pos this]⟩
  · rw [paginate_exited _ _ _ _ _ h1.2.2.1, h1.2.2.2.1, h1.2.2.2.2]
    have : all.length ≠ 0 := by have := h1.1; rw [hcnt0] at this; omega
    exact ⟨hrepos0, by rw [hcalls0, if_neg this]⟩
  · exact absurd hpage h1.2.1

/-- C6 fails on the code: against a service that reports a total of 1,
serves that one repository in the first page and an empty page after it,
`getRepos` issues two queries, not one, and prints the message of the
1000-result limit; `repos` does end up holding the one repository. -/
theorem getRepos_one_result_two_queries :
    Serves (pagedClient (sampleRepos 1) 1) (lit "CVE-2021") (sampleRepos 1) 1 List.length ∧
    (getRepos (pagedClient (sampleRepos 1) 1) (lit "CVE-2021") State.init).map
      (fun st => (st.calls, st.repos.length, st.stdout))
      = some (2, 1, [lit "\nLimit of 1000 results reached!"]) :=
  ⟨pagedClient_serves (sampleRepos 1) 1 (lit "CVE-2021"), by decide⟩

end FindGhPoc
